import Mathlib

/-!
Verification of the URL normalization-and-merge engine of autoAppAnalyze
(`src/utils/url_normalizer.py`, `src/mapping/url_mapper.py`).

Strings are modelled as `List Char`.  The Python functions under scrutiny are
built on `urllib.parse.urlparse` / `urlunparse`; those library functions are
embedded below following current CPython (`urllib/parse.py`): leading
C0-control/space stripping, removal of tab/CR/LF, scheme recognition requiring
an ASCII-alphabetic first character, netloc delimited by `/?#` with the IPv6
bracket `ValueError` (modelled as `none`), fragment split at the first `#`,
query split at the first `?`, and the path/params split of `urlparse`.
`str.lower` is modelled on the ASCII range (the inputs handled by this
repository are ASCII); `_checknetloc`, which can only reject non-ASCII
netlocs, is omitted.  Wall-clock reads (`time.time()`) are modelled by an
explicit `now` argument.
-/

/-- Convert a string literal to the `List Char` representation used throughout. -/
def lc (s : String) : List Char := s.data

/-- ASCII model of Python `str.lower` on one character. -/
def pyLowerChar (c : Char) : Char :=
  if 65 ≤ c.toNat ∧ c.toNat ≤ 90 then Char.ofNat (c.toNat + 32) else c

/-- Model of Python `str.lower`. -/
def pyLower (s : List Char) : List Char := s.map pyLowerChar

/-- Python substring test `needle in hay`. -/
def strContains (hay needle : List Char) : Bool :=
  hay.tails.any (fun t => needle.isPrefixOf t)

/-- Characters removed from URLs by `urlsplit` (`_UNSAFE_URL_BYTES_TO_REMOVE`). -/
def isUnsafeUrlChar (c : Char) : Bool := c == '\t' || c == '\r' || c == '\n'

/-- C0 control characters and space, stripped from the front by `urlsplit`. -/
def isC0OrSpace (c : Char) : Bool := c.toNat ≤ 32

/-- The sanitization `urlsplit` performs before parsing: left-strip
C0-control/space characters, then delete every tab, CR and LF. -/
def sanitize (s : List Char) : List Char :=
  (s.dropWhile isC0OrSpace).filter (fun c => !isUnsafeUrlChar c)

/-- Characters allowed in a URL scheme (`urllib.parse.scheme_chars`). -/
def isSchemeChar (c : Char) : Bool :=
  c.isAlpha || c.isDigit || c == '+' || c == '-' || c == '.'

/-- Scheme recognition of `urlsplit`: the text before the first `:` must be
nonempty, start with an ASCII letter and consist of scheme characters; the
scheme is lower-cased.  Otherwise no scheme is split off. -/
def splitScheme (s : List Char) : List Char × List Char :=
  let a := s.takeWhile (· != ':')
  let b := s.dropWhile (· != ':')
  if b ≠ [] ∧ a ≠ [] ∧ a.headI.isAlpha ∧ a.all isSchemeChar then
    (pyLower a, b.tail)
  else
    ([], s)

/-- Delimiters ending the netloc in `_splitnetloc`. -/
def isNetlocDelim (c : Char) : Bool := c == '/' || c == '?' || c == '#'

/-- Hex digit of either case (`ipaddress._IPAddressBase._HEX_DIGITS`). -/
def isHexAny (c : Char) : Bool :=
  c.isDigit || ('a' ≤ c && c ≤ 'f') || ('A' ≤ c && c ≤ 'F')

/-- Decimal value of an all-digit string. -/
def decValue (s : List Char) : Nat := s.foldl (fun a c => a * 10 + (c.toNat - 48)) 0

/-- Model of `ipaddress.IPv4Address._parse_octet`: ASCII digits, at most three
of them, no leading zero (except `0` itself), value at most 255. -/
def validOctet (s : List Char) : Bool :=
  decide (s ≠ []) && s.all Char.isDigit && decide (s.length ≤ 3) &&
    (decide (s = ['0']) || decide (s.headD '0' ≠ '0')) && decide (decValue s ≤ 255)

/-- Model of IPv4 literal acceptance: exactly four valid octets. -/
def validIPv4 (s : List Char) : Bool :=
  decide ((s.splitOn '.').length = 4) && (s.splitOn '.').all validOctet

/-- Model of `ipaddress.IPv6Address._parse_hextet`: one to four hex digits. -/
def validHextet (s : List Char) : Bool :=
  decide (s ≠ []) && decide (s.length ≤ 4) && s.all isHexAny

/-- The hextet-count/skip logic of `IPv6Address._ip_int_from_string` after the
embedded-IPv4 tail (if any) has been replaced by two hextets: at most nine
parts, at most one empty interior part (the `::`), boundary empties only
adjacent to the `::`, at most seven explicit hextets around a `::` (else
exactly eight), and every nonempty part a valid hextet. -/
def validHextetParts (parts : List (List Char)) : Bool :=
  let n := parts.length
  if n > 9 then false
  else
    match (List.range n).filter
        (fun i => decide (1 ≤ i) && decide (i + 1 < n) && decide (parts.getD i [' '] = [])) with
    | [] =>
      decide (n = 8) && decide (parts.headD [' '] ≠ []) &&
        decide (parts.getLastD [' '] ≠ []) && parts.all validHextet
    | [skip] =>
      let headEmpty : Bool := decide (parts.headD [' '] = [])
      let lastEmpty : Bool := decide (parts.getLastD [' '] = [])
      let hi := if headEmpty then skip - 1 else skip
      let lo := if lastEmpty then n - skip - 2 else n - skip - 1
      (!headEmpty || decide (skip = 1)) && (!lastEmpty || decide (skip = n - 2)) &&
        decide (hi + lo ≤ 7) && parts.all (fun s => s.isEmpty || validHextet s)
    | _ => false

/-- Model of `IPv6Address._ip_int_from_string` validity: split on `:`, at
least three parts, an embedded IPv4 tail becomes two hextets, then the
skip/count logic. -/
def validIPv6Addr (addr : List Char) : Bool :=
  let parts0 := addr.splitOn ':'
  if parts0.length < 3 then false
  else
    let lastP := parts0.getLastD []
    if lastP.contains '.' then
      validIPv4 lastP && validHextetParts (parts0.dropLast ++ [['0'], ['0']])
    else validHextetParts parts0

/-- IPv6 literal with an optional nonempty `%scope` (no `%` inside the scope). -/
def validIPv6WithScope (h : List Char) : Bool :=
  if h.contains '%' then
    let scope := (h.dropWhile (· != '%')).tail
    decide (scope ≠ []) && !scope.contains '%' && validIPv6Addr (h.takeWhile (· != '%'))
  else validIPv6Addr h

/-- Model of the regex `\Av[a-fA-F0-9]+\..+\Z` used for IPvFuture addresses
(`.` does not match a newline). -/
def validIPvFutureHost (s : List Char) : Bool :=
  match s with
  | 'v' :: t =>
    let h := t.takeWhile isHexAny
    if h = [] then false
    else
      match t.drop h.length with
      | '.' :: rest => decide (rest ≠ []) && rest.all (· != '\n')
      | _ => false
  | _ => false

/-- Model of `urllib.parse._check_bracketed_host` on the text between the
first `[` and the following `]`: a `v`-prefixed host must be a valid
IPvFuture, anything else must be accepted by `ipaddress.ip_address` as an
IPv6 address (an IPv4 address in brackets is rejected, and no IPv4 literal is
also a valid IPv6 literal). -/
def checkBracketedHost (h : List Char) : Bool :=
  if h.headD ' ' = 'v' then validIPvFutureHost h else validIPv6WithScope h

/-- Netloc recognition of `urlsplit`: after a leading `//`, the netloc runs to
the first `/`, `?` or `#`.  A `[` without `]` (or vice versa), or an invalid
bracketed host, raises `ValueError` in Python, modelled as `none`. -/
def splitNetloc (s : List Char) : Option (List Char × List Char) :=
  if s.take 2 = ['/', '/'] then
    let rest := s.drop 2
    let n := rest.takeWhile (fun c => !isNetlocDelim c)
    let r := rest.dropWhile (fun c => !isNetlocDelim c)
    if (n.contains '[' && !n.contains ']') || (n.contains ']' && !n.contains '[') then
      none
    else if n.contains '[' && n.contains ']' then
      if checkBracketedHost (((n.dropWhile (· != '[')).tail).takeWhile (· != ']')) then
        some (n, r)
      else none
    else
      some (n, r)
  else
    some ([], s)

/-- Split at the first `#` into (rest, fragment); no `#` gives an empty
fragment, exactly as `url.split('#', 1)` guarded by `'#' in url`. -/
def splitHash (s : List Char) : List Char × List Char :=
  (s.takeWhile (· != '#'), (s.dropWhile (· != '#')).tail)

/-- Split at the first `?` into (path, query). -/
def splitQuery (s : List Char) : List Char × List Char :=
  (s.takeWhile (· != '?'), (s.dropWhile (· != '?')).tail)

/-- Result of `urllib.parse.urlsplit`. -/
structure SplitResult where
  scheme : List Char
  netloc : List Char
  path : List Char
  query : List Char
  fragment : List Char
deriving DecidableEq, Repr

/-- Model of `urllib.parse.urlsplit` (with `allow_fragments=True`). -/
def pyUrlsplit (url : List Char) : Option SplitResult :=
  let u := sanitize url
  let (scheme, u1) := splitScheme u
  match splitNetloc u1 with
  | none => none
  | some (netloc, u2) =>
    let (u3, fragment) := splitHash u2
    let (path, query) := splitQuery u3
    some ⟨scheme, netloc, path, query, fragment⟩

/-- Index of the last `/` in `p` (Python `p.rfind('/')`; caller guarantees a
`/` is present). -/
def lastSlashIdx (p : List Char) : Nat :=
  match p.reverse.findIdx? (· == '/') with
  | some j => p.length - 1 - j
  | none => 0

/-- Model of `urllib.parse._splitparams`: split the path at the first `;`
located at or after the last `/` (or the first `;` if the path has no `/`). -/
def splitparams (p : List Char) : List Char × List Char :=
  if p.contains '/' then
    let r := lastSlashIdx p
    match (p.drop r).findIdx? (· == ';') with
    | none => (p, [])
    | some k => (p.take (r + k), p.drop (r + k + 1))
  else
    (p.takeWhile (· != ';'), (p.dropWhile (· != ';')).tail)

/-- Result of `urllib.parse.urlparse`. -/
structure ParseResult where
  scheme : List Char
  netloc : List Char
  path : List Char
  params : List Char
  query : List Char
  fragment : List Char
deriving DecidableEq, Repr

/-- The schemes of `urllib.parse.uses_params`. -/
def usesParams : List (List Char) :=
  [lc "", lc "ftp", lc "hdl", lc "prospero", lc "http", lc "imap", lc "https",
   lc "shttp", lc "rtsp", lc "rtsps", lc "rtspu", lc "sip", lc "sips", lc "mms",
   lc "sftp", lc "tel"]

/-- Model of `urllib.parse.urlparse`: `urlsplit`, then split params off the
path when the scheme uses params and the path contains a `;`. -/
def pyUrlparse (url : List Char) : Option ParseResult :=
  (pyUrlsplit url).map fun r =>
    if r.scheme ∈ usesParams ∧ r.path.contains ';' then
      let (p, ps) := splitparams r.path
      ⟨r.scheme, r.netloc, p, ps, r.query, r.fragment⟩
    else
      ⟨r.scheme, r.netloc, r.path, [], r.query, r.fragment⟩

/-- The schemes of `urllib.parse.uses_netloc`. -/
def usesNetloc : List (List Char) :=
  [lc "", lc "ftp", lc "http", lc "gopher", lc "nntp", lc "telnet", lc "imap",
   lc "wais", lc "file", lc "mms", lc "https", lc "shttp", lc "snews",
   lc "prospero", lc "rtsp", lc "rtsps", lc "rtspu", lc "rsync", lc "svn",
   lc "svn+ssh", lc "sftp", lc "nfs", lc "git", lc "git+ssh", lc "ws", lc "wss"]

/-- The path adjustment inside `urlunsplit`'s authority branch: a nonempty
path not starting with `/` gets one prepended. -/
def fixPath (path : List Char) : List Char :=
  if path ≠ [] ∧ path.head? ≠ some '/' then '/' :: path else path

/-- The query/fragment tail appended by `urlunsplit`. -/
def qfTail (Q F : List Char) : List Char :=
  (if Q ≠ [] then '?' :: Q else []) ++ (if F ≠ [] then '#' :: F else [])

/-- Model of `urllib.parse.urlunsplit`: the `//` authority marker is emitted
when the netloc is nonempty, or when the scheme is one that uses a netloc and
the path does not already begin with `//`. -/
def urlunsplit (scheme netloc path query fragment : List Char) : List Char :=
  let u1 :=
    if netloc ≠ [] ∨ (scheme ≠ [] ∧ scheme ∈ usesNetloc ∧ path.take 2 ≠ ['/', '/']) then
      ('/' :: '/' :: netloc) ++ fixPath path
    else path
  let u2 := if scheme ≠ [] then scheme ++ ':' :: u1 else u1
  let u3 := if query ≠ [] then u2 ++ '?' :: query else u2
  if fragment ≠ [] then u3 ++ '#' :: fragment else u3

/-- Model of `urllib.parse.urlunparse`: rejoin path and params with `;`, then
`urlunsplit`. -/
def urlunparse (c : ParseResult) : List Char :=
  let p := if c.params ≠ [] then c.path ++ ';' :: c.params else c.path
  urlunsplit c.scheme c.netloc p c.query c.fragment

/-- The path transformation applied by `normalize_url`: strip trailing slashes
unless the path is empty or exactly `/`. -/
def normPath (p : List Char) : List Char :=
  if p ≠ [] ∧ p ≠ ['/'] then List.rdropWhile (· == '/') p else p

/-- Embedding of `url_normalizer.normalize_url`: lower-case scheme and host,
strip trailing dots from the host, strip trailing slashes from a non-root
path, and rebuild the URL.  A parse failure is caught and the input returned
unchanged. -/
def normalize_url (url : List Char) : List Char :=
  match pyUrlparse url with
  | none => url
  | some p =>
    urlunparse
      ⟨pyLower p.scheme, List.rdropWhile (· == '.') (pyLower p.netloc),
        normPath p.path, p.params, p.query, p.fragment⟩

/-- A path parameter extracted by `extract_path_parameters`: the classified
kind (`uuid` / `numeric_id` / `alphanumeric_id`) and the literal value. -/
structure PyParam where
  type : List Char
  value : List Char
deriving DecidableEq, Repr

/-- Lower-case hexadecimal digit, as in the `[0-9a-f]` character class. -/
def isHexChar (c : Char) : Bool := c.isDigit || ('a' ≤ c && c ≤ 'f')

/-- ASCII alphanumeric character, as in the `[a-zA-Z0-9]` class. -/
def isAlnumChar (c : Char) : Bool := c.isAlpha || c.isDigit

/-- Take exactly `n` hex digits from the front. -/
def takeHexN (n : Nat) (s : List Char) : Option (List Char × List Char) :=
  let t := s.take n
  if t.length = n ∧ t.all isHexChar then some (t, s.drop n) else none

/-- Consume a `-`. -/
def dashNext : List Char → Option (List Char)
  | '-' :: r => some r
  | _ => none

/-- Try to match the UUID pattern `[0-9a-f]{8}-(4)-(4)-(4)-(12)` at the head
of `s`; on success return the matched text and the remaining input. -/
def uuidAt (s : List Char) : Option (List Char × List Char) := do
  let (a, s1) ← takeHexN 8 s
  let s2 ← dashNext s1
  let (b, s3) ← takeHexN 4 s2
  let s4 ← dashNext s3
  let (c, s5) ← takeHexN 4 s4
  let s6 ← dashNext s5
  let (d, s7) ← takeHexN 4 s6
  let s8 ← dashNext s7
  let (e, s9) ← takeHexN 12 s8
  some (a ++ '-' :: b ++ '-' :: c ++ '-' :: d ++ '-' :: e, s9)

/-- Scanner for `re.findall` of the UUID pattern: left-to-right,
non-overlapping, advancing one character on failure.  The fuel argument is the
input length; every step consumes at least one character. -/
def findallUuidAux : Nat → List Char → List (List Char)
  | 0, _ => []
  | _, [] => []
  | fuel + 1, c :: rest =>
    match uuidAt (c :: rest) with
    | some (m, r) => m :: findallUuidAux fuel r
    | none => findallUuidAux fuel rest

/-- `re.findall` of the UUID pattern. -/
def findallUuid (s : List Char) : List (List Char) := findallUuidAux s.length s

/-- Scanner for `re.findall` of `/C+/` where `C` is a character class:
at a `/`, take the maximal run of class characters; the match succeeds exactly
when the run is nonempty and followed by another `/`.  The trailing `/` is
consumed by the match (matches are non-overlapping). -/
def findallSlashRunAux (cls : Char → Bool) : Nat → List Char → List (List Char)
  | 0, _ => []
  | _, [] => []
  | fuel + 1, c :: rest =>
    if c = '/' then
      let run := rest.takeWhile cls
      if run ≠ [] then
        match rest.drop run.length with
        | '/' :: rest2 => (('/' :: run) ++ ['/']) :: findallSlashRunAux cls fuel rest2
        | _ => findallSlashRunAux cls fuel rest
      else findallSlashRunAux cls fuel rest
    else findallSlashRunAux cls fuel rest

/-- `re.findall(r'/\d+/', s)`. -/
def findallNum (s : List Char) : List (List Char) :=
  findallSlashRunAux Char.isDigit s.length s

/-- `re.findall(r'/[a-zA-Z0-9]+/', s)`. -/
def findallAlnum (s : List Char) : List (List Char) :=
  findallSlashRunAux isAlnumChar s.length s

/-- Python `str.replace(old, new)` for nonempty `old`: replace all
non-overlapping occurrences left to right. -/
def listReplaceAux : Nat → List Char → List Char → List Char → List Char
  | 0, s, _, _ => s
  | _, [], _, _ => []
  | fuel + 1, c :: rest, old, new =>
    if old.isPrefixOf (c :: rest) then
      new ++ listReplaceAux fuel ((c :: rest).drop old.length) old new
    else
      c :: listReplaceAux fuel rest old new

/-- Python `str.replace('', new)`: the replacement is inserted before every
character and at the end. -/
def listReplaceEmptyPat (new : List Char) : List Char → List Char
  | [] => new
  | c :: rest => new ++ c :: listReplaceEmptyPat new rest

/-- Python `str.replace`. -/
def listReplace (s old new : List Char) : List Char :=
  if old = [] then listReplaceEmptyPat new s else listReplaceAux s.length s old new

/-- Python `match.strip('/')`. -/
def stripSlashes (s : List Char) : List Char :=
  List.rdropWhile (· == '/') (s.dropWhile (· == '/'))

/-- The stoplist of segment values never recorded as alphanumeric parameters. -/
def paramStoplist : List (List Char) :=
  [lc "api", lc "v1", lc "v2", lc "v3", lc "users", lc "user", lc "products", lc "product"]

/-- Embedding of `url_normalizer.extract_path_parameters`: three passes over
the parsed path (UUID, then numeric `/d+/` segments, then alphanumeric
segments filtered by the stoplist), each pass computing its matches first and
then substituting placeholders; the URL is rebuilt with unparse.  A parse
failure is caught and `(url, [])` returned. -/
def extract_path_parameters (url : List Char) : List Char × List PyParam :=
  match pyUrlparse url with
  | none => (url, [])
  | some parsed =>
    let st0 : List Char × List PyParam := (parsed.path, [])
    let st1 := (findallUuid parsed.path).foldl
      (fun st m => (listReplace st.1 m (lc "{uuid}"), st.2 ++ [⟨lc "uuid", m⟩])) st0
    let st2 := (findallNum st1.1).foldl
      (fun st m =>
        (listReplace st.1 m (lc "/{id}/"), st.2 ++ [⟨lc "numeric_id", stripSlashes m⟩])) st1
    let st3 := (findallAlnum st2.1).foldl
      (fun st m =>
        let v := stripSlashes m
        if pyLower v ∈ paramStoplist then st
        else (listReplace st.1 (('/' :: v) ++ ['/']) (lc "/{param}/"),
              st.2 ++ [⟨lc "alphanumeric_id", v⟩])) st2
    (urlunparse
      ⟨parsed.scheme, parsed.netloc, st3.1, parsed.params, parsed.query, parsed.fragment⟩,
      st3.2)

/-- Risk levels produced by the classifier (`LOW`/`MEDIUM`/`HIGH`). -/
inductive Risk
  | LOW
  | MEDIUM
  | HIGH
deriving DecidableEq, Repr

/-- The ordinal used by the merge rule (`{'LOW': 1, 'MEDIUM': 2, 'HIGH': 3}`). -/
def riskOrd : Risk → Nat
  | .LOW => 1
  | .MEDIUM => 2
  | .HIGH => 3

/-- The fixed risk indicator list, in source order. -/
def risk_indicators : List (List Char) :=
  [lc "admin", lc "login", lc "auth", lc "token", lc "password", lc "secret",
   lc "key", lc "config", lc "debug", lc "test", lc "dev"]

/-- Embedding of the risk loop of `create_url_mapping_entry` (the identical
loop in `url_normalizer.generate_url_map` omits the `parameters and` guard,
but `any` over an empty list is false, so the semantics coincide): a single
pass over the indicators; for each indicator, first the lower-cased URL is
tested (HIGH, stop), then the parameter values (MEDIUM, stop). -/
def classifyRisk : List (List Char) → List Char → List PyParam → Risk
  | [], _, _ => .LOW
  | ind :: rest, url, params =>
    if strContains (pyLower url) ind then .HIGH
    else if !params.isEmpty && params.any (fun p => strContains (pyLower p.value) ind) then
      .MEDIUM
    else classifyRisk rest url params

/-- An Endpoint Entry as built by `create_url_mapping_entry`. -/
structure UrlEntry where
  signature : List Char
  host : List Char
  path : List Char
  method : List Char
  parameters : List PyParam
  sources : List (List Char)
  original_urls : List (List Char)
  risk_level : Risk
  first_seen : Nat
  last_seen : Nat
  frequency : Nat
deriving DecidableEq, Repr

/-- The placeholder substitution loop of `create_url_mapping_entry`: each
parameter's literal value is replaced in the path by the placeholder for its
type. -/
def substParams (parameters : List PyParam) (path : List Char) : List Char :=
  parameters.foldl
    (fun p param =>
      if param.type = lc "uuid" then listReplace p param.value (lc "{uuid}")
      else if param.type = lc "numeric_id" then listReplace p param.value (lc "{id}")
      else if param.type = lc "alphanumeric_id" then listReplace p param.value (lc "{param}")
      else p) path

/-- Embedding of `url_mapper.create_url_mapping_entry`.  `now` models the
`time.time()` reads; a `urlparse` failure propagates (the Python function does
not catch it), modelled as `none`. -/
def create_url_mapping_entry (now : Nat) (url method source : List Char)
    (parameters : List PyParam) : Option UrlEntry :=
  (pyUrlparse url).map fun parsed =>
    let normalized_path := substParams parameters parsed.path
    { signature := parsed.netloc ++ normalized_path
      host := parsed.netloc
      path := normalized_path
      method := method
      parameters := parameters
      sources := [source]
      original_urls := [url]
      risk_level := classifyRisk risk_indicators url parameters
      first_seen := now
      last_seen := now
      frequency := 1 }

/-- The static-source merge branch of `merge_static_dynamic_data`: extend
sources/original_urls/parameters, add frequencies, take the later `last_seen`,
and upgrade `risk_level` when the incoming ordinal is strictly greater. -/
def mergeStaticBranch (existing incoming : UrlEntry) : UrlEntry :=
  let e :=
    { existing with
      sources := existing.sources ++ incoming.sources
      original_urls := existing.original_urls ++ incoming.original_urls
      parameters := existing.parameters ++ incoming.parameters
      frequency := existing.frequency + incoming.frequency
      last_seen := max existing.last_seen incoming.last_seen }
  if riskOrd incoming.risk_level > riskOrd existing.risk_level then
    { e with risk_level := incoming.risk_level }
  else e

/-- The dynamic-source merge branch: extend sources/original_urls, overwrite
the method unless the incoming one is `UNKNOWN`, add frequencies, take the
later `last_seen`.  `risk_level` is not touched. -/
def mergeDynamicBranch (existing incoming : UrlEntry) : UrlEntry :=
  { existing with
    sources := existing.sources ++ incoming.sources
    original_urls := existing.original_urls ++ incoming.original_urls
    method := if incoming.method ≠ lc "UNKNOWN" then incoming.method else existing.method
    frequency := existing.frequency + incoming.frequency
    last_seen := max existing.last_seen incoming.last_seen }

/-- The component-source merge branch: like the dynamic branch but the method
is forced to `CONTENT_PROVIDER`.  `risk_level` is not touched. -/
def mergeComponentBranch (existing incoming : UrlEntry) : UrlEntry :=
  { existing with
    sources := existing.sources ++ incoming.sources
    original_urls := existing.original_urls ++ incoming.original_urls
    method := lc "CONTENT_PROVIDER"
    frequency := existing.frequency + incoming.frequency
    last_seen := max existing.last_seen incoming.last_seen }

/-- A static-analysis URL record consumed by `merge_static_dynamic_data`
(`entry.get('url', '')`, `entry.get('parameters', [])`). -/
structure StaticRec where
  url : List Char
  parameters : List PyParam
deriving DecidableEq, Repr

/-- A dynamic-analysis flow (`flow.get('url', '')`, `flow.get('method', 'UNKNOWN')`). -/
structure DynFlow where
  url : List Char
  method : List Char
deriving DecidableEq, Repr

/-- A probed content provider (`provider.get('uri', '')`, `provider.get('accessible', False)`). -/
structure Provider where
  uri : List Char
  accessible : Bool
deriving DecidableEq, Repr

/-- In-place value update of the insertion-ordered dict `merged_entries`. -/
def updateEntry (sig : List Char) (f : UrlEntry → UrlEntry) :
    List (List Char × UrlEntry) → List (List Char × UrlEntry) :=
  List.map fun kv => if kv.1 = sig then (kv.1, f kv.2) else kv

/-- Fold one static record into the signature-keyed dict. -/
def ingestStatic (now : Nat) (m : List (List Char × UrlEntry)) (rec : StaticRec) :
    Option (List (List Char × UrlEntry)) :=
  (create_url_mapping_entry now rec.url (lc "UNKNOWN") (lc "static") rec.parameters).map
    fun ue =>
      if (m.lookup ue.signature).isSome then
        updateEntry ue.signature (fun ex => mergeStaticBranch ex ue) m
      else m ++ [(ue.signature, ue)]

/-- Fold one dynamic flow into the dict. -/
def ingestDynamic (now : Nat) (m : List (List Char × UrlEntry)) (flow : DynFlow) :
    Option (List (List Char × UrlEntry)) :=
  (create_url_mapping_entry now flow.url flow.method (lc "dynamic") []).map
    fun ue =>
      if (m.lookup ue.signature).isSome then
        updateEntry ue.signature (fun ex => mergeDynamicBranch ex ue) m
      else m ++ [(ue.signature, ue)]

/-- Fold one provider record into the dict; only accessible providers with a
nonempty URI are ingested, under the synthesized URL `content://<uri>`. -/
def ingestComponent (now : Nat) (m : List (List Char × UrlEntry)) (p : Provider) :
    Option (List (List Char × UrlEntry)) :=
  if p.accessible && !p.uri.isEmpty then
    (create_url_mapping_entry now (lc "content://" ++ p.uri) (lc "CONTENT_PROVIDER")
        (lc "component") []).map
      fun ue =>
        if (m.lookup ue.signature).isSome then
          updateEntry ue.signature (fun ex => mergeComponentBranch ex ue) m
        else m ++ [(ue.signature, ue)]
  else some m

/-- Model of `list(set(xs))`: the underlying set of `xs` (Python's iteration
order over a set is unspecified; first occurrences are kept here). -/
def pySetList (l : List (List Char)) : List (List Char) := l.eraseDups

/-- The final per-entry deduplication of `sources` and `original_urls`. -/
def dedupEntryFields (e : UrlEntry) : UrlEntry :=
  { e with sources := pySetList e.sources, original_urls := pySetList e.original_urls }

/-- Embedding of `url_mapper.merge_static_dynamic_data`, restricted to the
`entries` component of its result (the other keys are passed through from the
static results unchanged).  Statics, then dynamics, then components are folded
into an insertion-ordered dict keyed by signature; a `urlparse` failure on any
observation aborts the whole merge, as the uncaught exception does in Python. -/
def merge_static_dynamic_data (now : Nat) (staticUrls : List StaticRec)
    (dynamicResults : List DynFlow) (componentProviders : List Provider) :
    Option (List UrlEntry) := do
  let m1 ← staticUrls.foldlM (ingestStatic now) []
  let m2 ← dynamicResults.foldlM (ingestDynamic now) m1
  let m3 ← componentProviders.foldlM (ingestComponent now) m2
  pure (m3.map fun kv => dedupEntryFields kv.2)

/-- A stored URL map, as consumed by `compare_url_maps` (only `entries` is
read). -/
structure UrlMap where
  entries : List UrlEntry

/-- The signature set of a catalog (`{entry['signature'] for entry in ...}`). -/
def mapSignatures (m : UrlMap) : Finset (List Char) :=
  (m.entries.map (fun e => e.signature)).toFinset

/-- Result of `compare_url_maps` (Python returns the three sets as lists in
unspecified set-iteration order; the sets themselves are modelled). -/
structure CompareResult where
  added : Finset (List Char)
  removed : Finset (List Char)
  unchanged : Finset (List Char)
  added_count : Nat
  removed_count : Nat
  unchanged_count : Nat

/-- Embedding of `url_mapper.compare_url_maps`: pure set difference and
intersection of the two signature sets, with cardinalities in the summary. -/
def compare_url_maps (old_map new_map : UrlMap) : CompareResult :=
  let o := mapSignatures old_map
  let n := mapSignatures new_map
  { added := n \ o
    removed := o \ n
    unchanged := o ∩ n
    added_count := (n \ o).card
    removed_count := (o \ n).card
    unchanged_count := (o ∩ n).card }

/-- Outcome of attempting to read and deserialize the persisted catalog:
the file may be absent (IOError), present but malformed (json.load raises),
or a stored catalog. -/
inductive LoadSource
  | missing
  | malformed
  | stored (m : UrlMap)

/-- Embedding of `url_mapper.load_url_map`: the body is wrapped in
`try/except Exception`, so both failure modes return `None` and a successful
load returns the stored map. -/
def load_url_map : LoadSource → Option UrlMap
  | .missing => none
  | .malformed => none
  | .stored m => some m

/-- One later observation merged into an existing Endpoint Entry, tagged by
which `merge_static_dynamic_data` branch handles it. -/
inductive MergeObs
  | fromStatic (incoming : UrlEntry)
  | fromDynamic (incoming : UrlEntry)
  | fromComponent (incoming : UrlEntry)

/-- Apply one merge step to an existing entry. -/
def applyMergeObs (e : UrlEntry) : MergeObs → UrlEntry
  | .fromStatic i => mergeStaticBranch e i
  | .fromDynamic i => mergeDynamicBranch e i
  | .fromComponent i => mergeComponentBranch e i

/-- "The character `d` does not occur in `s`". -/
def NoChar (d : Char) (s : List Char) : Prop := ∀ c ∈ s, c ≠ d

/-! Helper lemmas. -/

/-- Single-pass characterization of the risk loop, for any indicator list. -/
theorem classifyRisk_eq_find (inds : List (List Char)) (url : List Char)
    (params : List PyParam) :
    classifyRisk inds url params =
      match inds.find? (fun i =>
          strContains (pyLower url) i ||
            (!params.isEmpty && params.any fun p => strContains (pyLower p.value) i)) with
      | some i => if strContains (pyLower url) i then Risk.HIGH else Risk.MEDIUM
      | none => Risk.LOW := by
  induction inds with
  | nil => rfl
  | cons i rest ih =>
    by_cases h1 : strContains (pyLower url) i = true
    · simp [classifyRisk, List.find?, h1]
    · rw [Bool.not_eq_true] at h1
      by_cases h2 : (!params.isEmpty && params.any fun p => strContains (pyLower p.value) i) = true
      · simp [classifyRisk, List.find?, h1, h2]
      · rw [Bool.not_eq_true] at h2
        simp [classifyRisk, List.find?, h1, h2, ih]

/-- Every individual merge step leaves the risk ordinal at least as high. -/
theorem riskOrd_le_applyMergeObs (e : UrlEntry) (op : MergeObs) :
    riskOrd e.risk_level ≤ riskOrd (applyMergeObs e op).risk_level := by
  cases op with
  | fromStatic i =>
    simp only [applyMergeObs, mergeStaticBranch]
    split
    · next h => exact Nat.le_of_lt h
    · exact Nat.le_refl _
  | fromDynamic i => exact Nat.le_refl _
  | fromComponent i => exact Nat.le_refl _

/-- Explicit form of a successfully created mapping entry. -/
theorem create_entry_eq {now : Nat} {url method source : List Char}
    {ps : List PyParam} {p : ParseResult} (h : pyUrlparse url = some p) :
    create_url_mapping_entry now url method source ps
      = some { signature := p.netloc ++ substParams ps p.path
               host := p.netloc
               path := substParams ps p.path
               method := method
               parameters := ps
               sources := [source]
               original_urls := [url]
               risk_level := classifyRisk risk_indicators url ps
               first_seen := now
               last_seen := now
               frequency := 1 } := by
  rw [create_url_mapping_entry, h]
  rfl

/-! Theorems for the claims. -/

/-- C1 counterexample: with the parameter value `admin` and the URL
`http://x.com/login`, the indicator `login` is a substring of the lower-cased
URL and `login` is in the indicator list, yet the classifier returns MEDIUM,
not HIGH — the parameter-level match on the earlier indicator `admin` wins,
so a URL-level match does not always outrank a parameter-level match. -/
theorem C1_counterexample :
    classifyRisk risk_indicators (lc "http://x.com/login")
        [⟨lc "alphanumeric_id", lc "admin"⟩] = Risk.MEDIUM ∧
      strContains (pyLower (lc "http://x.com/login")) (lc "login") = true ∧
      lc "login" ∈ risk_indicators := by
  refine ⟨by decide, by decide, by decide⟩

/-- C1 amended: the classifier makes a single pass over the indicator list;
the first indicator (in list order) matching the lower-cased URL or, failing
that, some parameter value decides the result — HIGH for a URL match of that
indicator, MEDIUM for a parameter-value match of that indicator, LOW when no
indicator matches either.  A parameter match on an earlier indicator thus
preempts a URL match on a later indicator. -/
theorem C1_risk_single_pass (url : List Char) (params : List PyParam) :
    classifyRisk risk_indicators url params =
      match risk_indicators.find? (fun i =>
          strContains (pyLower url) i ||
            (!params.isEmpty && params.any fun p => strContains (pyLower p.value) i)) with
      | some i => if strContains (pyLower url) i then Risk.HIGH else Risk.MEDIUM
      | none => Risk.LOW :=
  classifyRisk_eq_find risk_indicators url params

/-- C3 counterexample: two dynamic flows share the signature `a.com/x`; the
second one (`token` in its URL) recomputes to HIGH, but the dynamic merge
branch never touches `risk_level`, so the stored entry stays LOW instead of
the claimed ordinal maximum HIGH. -/
theorem C3_counterexample :
    (merge_static_dynamic_data 0 []
        [⟨lc "http://a.com/x", lc "GET"⟩, ⟨lc "http://a.com/x?token=1", lc "GET"⟩]
        []).map (fun es => es.map fun e => (e.signature, e.risk_level, e.frequency))
      = some [(lc "a.com/x", Risk.LOW, 2)] ∧
    (create_url_mapping_entry 0 (lc "http://a.com/x?token=1") (lc "GET") (lc "dynamic")
        []).map (fun e => e.risk_level) = some Risk.HIGH := by
  refine ⟨by decide, by decide⟩

/-- C3 amended: only the static-source merge branch applies the ordinal-max
rule to `risk_level`; the dynamic and component merge branches leave the
stored `risk_level` unchanged regardless of the incoming observation's risk. -/
theorem C3_amended_risk_merge_rules (existing incoming : UrlEntry) :
    riskOrd (mergeStaticBranch existing incoming).risk_level
        = max (riskOrd existing.risk_level) (riskOrd incoming.risk_level) ∧
      (mergeDynamicBranch existing incoming).risk_level = existing.risk_level ∧
      (mergeComponentBranch existing incoming).risk_level = existing.risk_level := by
  refine ⟨?_, rfl, rfl⟩
  simp only [mergeStaticBranch]
  split
  · next h => exact (Nat.max_eq_right (Nat.le_of_lt h)).symm
  · next h => exact (Nat.max_eq_left (Nat.le_of_not_lt h)).symm

/-- C5: along any sequence of merge steps into one entry (any mix of static,
dynamic and component merges), the risk ordinal after step `n + 1` is never
below the ordinal after step `n`. -/
theorem C5_risk_monotone (e : UrlEntry) (ops : List MergeObs) (n : Nat) :
    riskOrd ((ops.take n).foldl applyMergeObs e).risk_level ≤
      riskOrd ((ops.take (n + 1)).foldl applyMergeObs e).risk_level := by
  rw [List.take_succ, List.foldl_append]
  cases ops[n]? with
  | none => exact Nat.le_refl _
  | some op =>
    exact riskOrd_le_applyMergeObs ((ops.take n).foldl applyMergeObs e) op

/-- C7: the snapshot differ is pure set arithmetic on the signature sets —
`diff(C, C)` has empty added/removed and `unchanged = signatures(C)`, the
three components are exactly set difference/difference/intersection, and a
signature present in both catalogs is always reported unchanged (and never
added or removed), so entry-content changes are invisible to the differ. -/
theorem C7_diff_set_semantics :
    (∀ C : UrlMap, compare_url_maps C C =
      ⟨∅, ∅, mapSignatures C, 0, 0, (mapSignatures C).card⟩) ∧
    (∀ om nm : UrlMap,
      (compare_url_maps om nm).added = mapSignatures nm \ mapSignatures om ∧
      (compare_url_maps om nm).removed = mapSignatures om \ mapSignatures nm ∧
      (compare_url_maps om nm).unchanged = mapSignatures om ∩ mapSignatures nm) ∧
    (∀ om nm : UrlMap, ∀ s : List Char,
      s ∈ mapSignatures om → s ∈ mapSignatures nm →
      s ∈ (compare_url_maps om nm).unchanged ∧
        s ∉ (compare_url_maps om nm).added ∧ s ∉ (compare_url_maps om nm).removed) := by
  refine ⟨fun C => ?_, fun om nm => ⟨rfl, rfl, rfl⟩, fun om nm s hso hsn => ?_⟩
  · simp [compare_url_maps]
  · refine ⟨?_, ?_, ?_⟩
    · simpa [compare_url_maps, Finset.mem_inter] using ⟨hso, hsn⟩
    · simp [compare_url_maps, Finset.mem_sdiff, hso]
    · simp [compare_url_maps, Finset.mem_sdiff, hsn]

/-- C8: on the URL `/users/123/` the extractor returns the normalized path
`/users/{id}/` with exactly the parameter `{type: numeric_id, value: "123"}`;
the stoplisted segment `users` stays in place and is not recorded.  The same
holds inside a full URL. -/
theorem C8_param_extraction_example :
    extract_path_parameters (lc "/users/123/")
        = (lc "/users/{id}/", [⟨lc "numeric_id", lc "123"⟩]) ∧
      extract_path_parameters (lc "https://api.example.com/users/123/")
        = (lc "https://api.example.com/users/{id}/", [⟨lc "numeric_id", lc "123"⟩]) := by
  refine ⟨by decide, by decide⟩

/-- C9: loading a catalog never raises — a missing or malformed source yields
the explicit failure `none` (never a partially populated catalog), and a
successful load returns exactly the stored catalog. -/
theorem C9_load_failure :
    load_url_map .missing = none ∧ load_url_map .malformed = none ∧
      ∀ m : UrlMap, load_url_map (.stored m) = some m :=
  ⟨rfl, rfl, fun _ => rfl⟩

/-- C10: both extraction functions are total, and when URL parsing fails the
fallbacks hold — `normalize_url` returns its input unchanged and
`extract_path_parameters` returns the input with an empty parameter list. -/
theorem C10_extraction_total_fallback (u : List Char) (h : pyUrlparse u = none) :
    normalize_url u = u ∧ extract_path_parameters u = (u, []) := by
  constructor
  · unfold normalize_url
    rw [h]
  · unfold extract_path_parameters
    rw [h]

/-- Witness for C10 at the concrete input `//[x` (unmatched IPv6 bracket, a
`ValueError` in Python). -/
theorem C10_extraction_total_fallback_witness :
    pyUrlparse (lc "//[x") = none ∧
      normalize_url (lc "//[x") = lc "//[x" ∧
      extract_path_parameters (lc "//[x") = (lc "//[x", []) := by
  have h : pyUrlparse (lc "//[x") = none := by decide
  exact ⟨h, (C10_extraction_total_fallback (lc "//[x") h).1,
    (C10_extraction_total_fallback (lc "//[x") h).2⟩

/-- Witness for C7 at two concrete one-entry catalogs sharing a signature. -/
theorem C7_diff_set_semantics_witness :
    (lc "h/p") ∈ (compare_url_maps
        ⟨[{ signature := lc "h/p", host := lc "h", path := lc "/p", method := lc "GET",
            parameters := [], sources := [lc "static"], original_urls := [],
            risk_level := .LOW, first_seen := 0, last_seen := 0, frequency := 1 }]⟩
        ⟨[{ signature := lc "h/p", host := lc "h", path := lc "/p", method := lc "POST",
            parameters := [], sources := [lc "dynamic"], original_urls := [],
            risk_level := .HIGH, first_seen := 0, last_seen := 0, frequency := 2 }]⟩).unchanged :=
  (C7_diff_set_semantics.2.2 _ _ (lc "h/p") (by decide) (by decide)).1

/-- C4 counterexample: building an entry from `http://EXAMPLE.com./a/` keeps
the host's upper case, its trailing dot and the path's trailing slash in the
signature — the claimed normalization (`example.com/a`) is not applied at
signature construction. -/
theorem C4_counterexample :
    (create_url_mapping_entry 0 (lc "http://EXAMPLE.com./a/") (lc "UNKNOWN")
        (lc "static") []).map (fun e => e.signature) = some (lc "EXAMPLE.com./a/") ∧
      lc "EXAMPLE.com./a/" ≠ lc "example.com/a" := by
  refine ⟨by decide, by decide⟩

/-- C4 amended: the signature built by `create_url_mapping_entry` is exactly
the parsed netloc concatenated with the placeholder-substituted path — scheme,
query and fragment are excluded (two URLs parsing to the same netloc and path
always get the same signature), but no host lower-casing, trailing-dot
stripping or trailing-slash stripping happens here; those transformations
live only in `normalize_url`, which the static pipeline applies before
signatures are built while `create_url_mapping_entry` does not. -/
theorem C4_amended_signature (now : Nat) (u1 u2 method source : List Char)
    (ps : List PyParam) (p1 p2 : ParseResult)
    (h1 : pyUrlparse u1 = some p1) (h2 : pyUrlparse u2 = some p2)
    (hn : p1.netloc = p2.netloc) (hp : p1.path = p2.path) :
    ∃ e1 e2 : UrlEntry,
      create_url_mapping_entry now u1 method source ps = some e1 ∧
        create_url_mapping_entry now u2 method source ps = some e2 ∧
        e1.signature = p1.netloc ++ substParams ps p1.path ∧
        e1.signature = e2.signature := by
  refine ⟨_, _, create_entry_eq h1, create_entry_eq h2, rfl, ?_⟩
  show p1.netloc ++ substParams ps p1.path = p2.netloc ++ substParams ps p2.path
  rw [hn, hp]

/-- Witness for C4 at `https://api.example.com/v1/users/123` and
`http://api.example.com/v1/users/123?x=1`, which differ in scheme and query
only. -/
theorem C4_amended_signature_witness :
    ∃ e1 e2 : UrlEntry,
      create_url_mapping_entry 0 (lc "https://api.example.com/v1/users/123")
          (lc "UNKNOWN") (lc "static") [] = some e1 ∧
        create_url_mapping_entry 0 (lc "http://api.example.com/v1/users/123?x=1")
          (lc "UNKNOWN") (lc "static") [] = some e2 ∧
        e1.signature = lc "api.example.com" ++ substParams [] (lc "/v1/users/123") ∧
        e1.signature = e2.signature :=
  C4_amended_signature 0 (lc "https://api.example.com/v1/users/123")
    (lc "http://api.example.com/v1/users/123?x=1") (lc "UNKNOWN") (lc "static") []
    ⟨lc "https", lc "api.example.com", lc "/v1/users/123", [], [], []⟩
    ⟨lc "http", lc "api.example.com", lc "/v1/users/123", [], lc "x=1", []⟩
    (by decide) (by decide) (by decide) (by decide)

/-- C2 counterexample: the static observation of
`https://api.example.com/v1/users/123` gets signature
`api.example.com/v1/users/{id}`, but the dynamic observation of
`http://api.example.com/v1/users/123?x=1` is never run through parameter
extraction, so its signature keeps the literal `123`; the two signatures
differ and the merge produces two entries, not one entry with frequency 2. -/
theorem C2_counterexample :
    (create_url_mapping_entry 0 (lc "https://api.example.com/v1/users/123")
          (lc "UNKNOWN") (lc "static") [⟨lc "numeric_id", lc "123"⟩]).map
        (fun e => e.signature)
      ≠ (create_url_mapping_entry 0 (lc "http://api.example.com/v1/users/123?x=1")
          (lc "GET") (lc "dynamic") []).map (fun e => e.signature) ∧
    (merge_static_dynamic_data 0
        [⟨lc "https://api.example.com/v1/users/123", [⟨lc "numeric_id", lc "123"⟩]⟩]
        [⟨lc "http://api.example.com/v1/users/123?x=1", lc "GET"⟩] []).map
      (fun es => es.length) = some 2 := by
  refine ⟨by decide, by decide⟩

/-- C2 amended: the static observation normalizes to signature
`api.example.com/v1/users/{id}`; the dynamic observation's signature is
`api.example.com/v1/users/123` (scheme and query are still excluded, but no
placeholder substitution happens for dynamic flows); merging the two yields
two Endpoint Entries, each with frequency 1. -/
theorem C2_amended_two_entries :
    (create_url_mapping_entry 0 (lc "https://api.example.com/v1/users/123")
          (lc "UNKNOWN") (lc "static") [⟨lc "numeric_id", lc "123"⟩]).map
        (fun e => e.signature) = some (lc "api.example.com/v1/users/{id}") ∧
    (create_url_mapping_entry 0 (lc "http://api.example.com/v1/users/123?x=1")
          (lc "GET") (lc "dynamic") []).map (fun e => e.signature)
      = some (lc "api.example.com/v1/users/123") ∧
    (merge_static_dynamic_data 0
        [⟨lc "https://api.example.com/v1/users/123", [⟨lc "numeric_id", lc "123"⟩]⟩]
        [⟨lc "http://api.example.com/v1/users/123?x=1", lc "GET"⟩] []).map
      (fun es => es.map fun e => (e.signature, e.frequency))
      = some [(lc "api.example.com/v1/users/{id}", 1),
              (lc "api.example.com/v1/users/123", 1)] := by
  refine ⟨by decide, by decide, by decide⟩

/-- C6 counterexample: normalization is not idempotent.  For `/a/;/` the first
pass splits no params (the `;` is after the last `/`) and strips the trailing
slash, giving `/a/;`; the second pass now splits params at the exposed `;`,
strips the newly trailing slash and drops the empty params on rebuild, giving
`/a`. -/
theorem C6_counterexample :
    normalize_url (lc "/a/;/") = lc "/a/;" ∧
      normalize_url (normalize_url (lc "/a/;/")) = lc "/a" ∧
      normalize_url (normalize_url (lc "/a/;/")) ≠ normalize_url (lc "/a/;/") := by
  refine ⟨by decide, by decide, by decide⟩

/-! Helper lemmas for the conditional idempotence of `normalize_url`. -/

/-- Value of `Char.ofNat` at a valid code point. -/
theorem charOfNat_toNat {n : Nat} (h : n.isValidChar) : (Char.ofNat n).toNat = n := by
  simp [Char.ofNat, h, Char.ofNatAux, Char.toNat, UInt32.toNat, BitVec.toNat_ofNatLt]

/-- `Char.isAlpha` in terms of code points. -/
theorem char_isAlpha_iff (c : Char) :
    c.isAlpha = true ↔ ((65 ≤ c.toNat ∧ c.toNat ≤ 90) ∨ (97 ≤ c.toNat ∧ c.toNat ≤ 122)) := by
  simp [Char.isAlpha, Char.isUpper, Char.isLower, UInt32.le_def, BitVec.le_def, Char.toNat,
    UInt32.toNat]

/-- Lower-casing an upper-case letter lands in the lower-case range. -/
theorem pyLowerChar_toNat_of_upper {c : Char} (h : 65 ≤ c.toNat ∧ c.toNat ≤ 90) :
    (pyLowerChar c).toNat = c.toNat + 32 := by
  unfold pyLowerChar
  rw [if_pos h]
  exact charOfNat_toNat (Or.inl (by omega))

/-- ASCII lower-casing is idempotent. -/
theorem pyLowerChar_idem (c : Char) : pyLowerChar (pyLowerChar c) = pyLowerChar c := by
  by_cases h : 65 ≤ c.toNat ∧ c.toNat ≤ 90
  · have hnc : ¬(65 ≤ (Char.ofNat (c.toNat + 32)).toNat ∧ (Char.ofNat (c.toNat + 32)).toNat ≤ 90) := by
      rw [charOfNat_toNat (Or.inl (by omega))]
      omega
    unfold pyLowerChar
    rw [if_pos h, if_neg hnc]
  · unfold pyLowerChar
    rw [if_neg h, if_neg h]

/-- Lower-casing never produces a character below code point 97, so it
preserves distinctness from any such character. -/
theorem pyLowerChar_ne_small {c d : Char} (hd : d.toNat < 97) (h : c ≠ d) :
    pyLowerChar c ≠ d := by
  by_cases hc : 65 ≤ c.toNat ∧ c.toNat ≤ 90
  · intro he
    have := pyLowerChar_toNat_of_upper hc
    rw [he] at this
    omega
  · unfold pyLowerChar
    rw [if_neg hc]
    exact h

/-- Lower-casing preserves ASCII letters. -/
theorem pyLowerChar_isAlpha {c : Char} (h : c.isAlpha = true) :
    (pyLowerChar c).isAlpha = true := by
  by_cases hc : 65 ≤ c.toNat ∧ c.toNat ≤ 90
  · rw [char_isAlpha_iff]
    right
    rw [pyLowerChar_toNat_of_upper hc]
    omega
  · unfold pyLowerChar
    rw [if_neg hc]
    exact h

/-- Lower-casing preserves scheme characters. -/
theorem pyLowerChar_isSchemeChar {c : Char} (h : isSchemeChar c = true) :
    isSchemeChar (pyLowerChar c) = true := by
  by_cases hc : 65 ≤ c.toNat ∧ c.toNat ≤ 90
  · have : (pyLowerChar c).isAlpha = true := by
      rw [char_isAlpha_iff]
      right
      rw [pyLowerChar_toNat_of_upper hc]
      omega
    simp [isSchemeChar, this]
  · unfold pyLowerChar
    rw [if_neg hc]
    exact h

/-- Lower-casing preserves not being a C0-control/space character. -/
theorem pyLowerChar_not_c0 {c : Char} (h : isC0OrSpace c = false) :
    isC0OrSpace (pyLowerChar c) = false := by
  by_cases hc : 65 ≤ c.toNat ∧ c.toNat ≤ 90
  · simp only [isC0OrSpace, pyLowerChar_toNat_of_upper hc]
    simp only [isC0OrSpace] at h
    simp at h ⊢
    omega
  · unfold pyLowerChar
    rw [if_neg hc]
    exact h

/-- `NoChar` is inherited along sublists. -/
theorem noChar_of_sublist {d : Char} {s t : List Char} (hsub : List.Sublist t s)
    (h : NoChar d s) : NoChar d t :=
  fun c hc => h c (hsub.subset hc)

/-- `NoChar` for a small character survives lower-casing. -/
theorem noChar_pyLower {d : Char} {s : List Char} (hd : d.toNat < 97)
    (h : NoChar d s) : NoChar d (pyLower s) := by
  intro c hc
  obtain ⟨c0, hc0, rfl⟩ := List.mem_map.mp hc
  exact pyLowerChar_ne_small hd (h c0 hc0)

/-- `NoChar` splits over an append. -/
theorem noChar_append {d : Char} {xs ys : List Char} (hx : NoChar d xs)
    (hy : NoChar d ys) : NoChar d (xs ++ ys) := by
  intro c hc
  rcases List.mem_append.mp hc with h | h
  · exact hx c h
  · exact hy c h

/-- `takeWhile` over an append whose first part satisfies the predicate. -/
theorem takeWhile_append_sat {p : Char → Bool} {xs ys : List Char}
    (h : ∀ c ∈ xs, p c = true) :
    (xs ++ ys).takeWhile p = xs ++ ys.takeWhile p := by
  induction xs with
  | nil => rfl
  | cons x t ih =>
    simp [List.takeWhile_cons, h x (List.mem_cons_self x t),
      ih (fun c hc => h c (List.mem_cons_of_mem x hc))]

/-- `dropWhile` over an append whose first part satisfies the predicate. -/
theorem dropWhile_append_sat {p : Char → Bool} {xs ys : List Char}
    (h : ∀ c ∈ xs, p c = true) :
    (xs ++ ys).dropWhile p = ys.dropWhile p := by
  induction xs with
  | nil => rfl
  | cons x t ih =>
    simp [List.dropWhile_cons, h x (List.mem_cons_self x t),
      ih (fun c hc => h c (List.mem_cons_of_mem x hc))]

/-- `takeWhile` over an append that already fails inside the first part. -/
theorem takeWhile_append_fail {p : Char → Bool} {xs ys : List Char}
    (h : ∃ c ∈ xs, p c = false) :
    (xs ++ ys).takeWhile p = xs.takeWhile p := by
  induction xs with
  | nil =>
    obtain ⟨c, hc, _⟩ := h
    exact absurd hc (List.not_mem_nil c)
  | cons x t ih =>
    by_cases hx : p x = true
    · obtain ⟨c, hc, hcf⟩ := h
      rcases List.mem_cons.mp hc with rfl | hct
      · rw [hx] at hcf
        cases hcf
      · simp [List.takeWhile_cons, hx, ih ⟨c, hct, hcf⟩]
    · rw [Bool.not_eq_true] at hx
      simp [List.takeWhile_cons, hx]

/-- `dropWhile` over an append that already fails inside the first part. -/
theorem dropWhile_append_fail {p : Char → Bool} {xs ys : List Char}
    (h : ∃ c ∈ xs, p c = false) :
    (xs ++ ys).dropWhile p = xs.dropWhile p ++ ys := by
  induction xs with
  | nil =>
    obtain ⟨c, hc, _⟩ := h
    exact absurd hc (List.not_mem_nil c)
  | cons x t ih =>
    by_cases hx : p x = true
    · obtain ⟨c, hc, hcf⟩ := h
      rcases List.mem_cons.mp hc with rfl | hct
      · rw [hx] at hcf
        cases hcf
      · simp [List.dropWhile_cons, hx, ih ⟨c, hct, hcf⟩]
    · rw [Bool.not_eq_true] at hx
      simp [List.dropWhile_cons, hx]

/-- Tab, CR and LF are C0 controls. -/
theorem not_unsafe_of_not_c0 {c : Char} (h : isC0OrSpace c = false) :
    isUnsafeUrlChar c = false := by
  simp only [isUnsafeUrlChar, Bool.or_eq_false_iff, beq_eq_false_iff_ne]
  refine ⟨⟨?_, ?_⟩, ?_⟩ <;> rintro rfl <;> exact absurd h (by decide)

/-- `sanitize` is the identity on strings with no leading C0/space character
and no tab/CR/LF anywhere. -/
theorem sanitize_eq_self {s : List Char} (h1 : s = [] ∨ isC0OrSpace s.headI = false)
    (h2 : ∀ c ∈ s, isUnsafeUrlChar c = false) : sanitize s = s := by
  unfold sanitize
  have hdw : s.dropWhile isC0OrSpace = s := by
    cases s with
    | nil => rfl
    | cons x t =>
      rcases h1 with h1 | h1
      · cases h1
      · rw [List.dropWhile_cons, if_neg]
        simp only [List.headI] at h1
        rw [h1]
        simp
  rw [hdw]
  rw [List.filter_eq_self]
  intro c hc
  rw [h2 c hc]
  rfl

/-- The output of `sanitize` never starts with a C0/space character. -/
theorem sanitize_headI (s : List Char) :
    sanitize s = [] ∨ isC0OrSpace (sanitize s).headI = false := by
  unfold sanitize
  cases hdw : s.dropWhile isC0OrSpace with
  | nil => left; rfl
  | cons x t =>
    have hx : isC0OrSpace x = false := by
      have h4 : List.dropWhile isC0OrSpace (x :: t) = x :: t := by
        rw [← hdw, List.dropWhile_idempotent]
      rw [List.dropWhile_cons] at h4
      by_cases hx0 : isC0OrSpace x = true
      · rw [if_pos hx0] at h4
        have h5 := congrArg List.length h4
        have h6 := (List.dropWhile_sublist (l := t) (p := isC0OrSpace)).length_le
        simp at h5
        omega
      · rwa [Bool.not_eq_true] at hx0
    right
    have hfx : (fun c => !isUnsafeUrlChar c) x = true := by
      simp [not_unsafe_of_not_c0 hx]
    rw [List.filter_cons, if_pos hfx]
    simpa using hx

/-- The output of `sanitize` contains no tab/CR/LF. -/
theorem sanitize_not_unsafe (s : List Char) :
    ∀ c ∈ sanitize s, isUnsafeUrlChar c = false := by
  intro c hc
  have := List.of_mem_filter hc
  simpa using this

/-- The success condition of `splitScheme`, inverted from an identity result. -/
theorem splitScheme_id_inv {s : List Char} (h : splitScheme s = ([], s))
    (hb : s.dropWhile (· != ':') ≠ []) (ha : s.takeWhile (· != ':') ≠ [])
    (hal : (s.takeWhile (· != ':')).headI.isAlpha = true) :
    ¬ ((s.takeWhile (· != ':')).all isSchemeChar = true) := by
  intro hall
  simp only [splitScheme] at h
  rw [if_pos ⟨hb, ha, hal, hall⟩] at h
  have h2 := congrArg Prod.fst h
  simp only at h2
  exact ha (List.map_eq_nil_iff.mp h2)

/-- `splitScheme` fails when the build condition fails. -/
theorem splitScheme_eq_id {s : List Char}
    (h : ¬ (s.dropWhile (· != ':') ≠ [] ∧ s.takeWhile (· != ':') ≠ [] ∧
      (s.takeWhile (· != ':')).headI.isAlpha = true ∧
      (s.takeWhile (· != ':')).all isSchemeChar = true)) :
    splitScheme s = ([], s) := by
  simp only [splitScheme]
  rw [if_neg h]

/-- `splitScheme` recovers a well-formed scheme put in front of `:`. -/
theorem splitScheme_build {S rest : List Char} (hne : S ≠ [])
    (halpha : S.headI.isAlpha = true) (hsch : ∀ c ∈ S, isSchemeChar c = true) :
    splitScheme (S ++ ':' :: rest) = (pyLower S, rest) := by
  have hnc : ∀ c ∈ S, (c != ':') = true := by
    intro c hc
    have h1 := hsch c hc
    rw [bne_iff_ne]
    intro he
    rw [he] at h1
    exact absurd h1 (by decide)
  have hta : (S ++ ':' :: rest).takeWhile (· != ':') = S := by
    rw [takeWhile_append_sat hnc, List.takeWhile_cons]
    simp
  have hda : (S ++ ':' :: rest).dropWhile (· != ':') = ':' :: rest := by
    rw [dropWhile_append_sat hnc, List.dropWhile_cons]
    simp
  simp only [splitScheme]
  rw [hta, hda, if_pos]
  · rfl
  · exact ⟨List.cons_ne_nil _ _, hne, halpha, List.all_eq_true.mpr hsch⟩

/-- `splitScheme` fails on an empty string or a non-letter first character. -/
theorem splitScheme_not_alpha {s : List Char}
    (h : s = [] ∨ s.headI.isAlpha = false) : splitScheme s = ([], s) := by
  apply splitScheme_eq_id
  rintro ⟨hb, ha, hal, -⟩
  rcases h with rfl | h
  · exact ha rfl
  · cases s with
    | nil => exact ha rfl
    | cons x t =>
      by_cases hx : (x != ':') = true
      · rw [List.takeWhile_cons, if_pos hx] at hal
        simp only [List.headI] at h hal
        rw [h] at hal
        cases hal
      · rw [List.takeWhile_cons, if_neg hx] at ha
        exact ha rfl

/-- If scheme recognition failed on `u0` and `P` is a prefix of `u0`, it also
fails on `P` followed by query/fragment material (empty, or starting with `?`
or `#`). -/
theorem splitScheme_append_fail {u0 P T : List Char} (hfail : splitScheme u0 = ([], u0))
    (hpre : P <+: u0) (hT : T = [] ∨ T.headI = '?' ∨ T.headI = '#') :
    splitScheme (P ++ T) = ([], P ++ T) := by
  by_cases hc : ∃ c ∈ P, (c != ':') = false
  · obtain ⟨Pt, hPt⟩ := hpre
    apply splitScheme_eq_id
    rintro ⟨hb, ha, hal, hall⟩
    rw [takeWhile_append_fail hc] at ha hal hall
    have hbu : u0.dropWhile (· != ':') ≠ [] := by
      rw [← hPt, dropWhile_append_fail hc]
      intro he
      obtain ⟨h3, -⟩ := List.append_eq_nil.mp he
      obtain ⟨c, hcm, hcf⟩ := hc
      rw [List.dropWhile_eq_nil_iff] at h3
      have h4 := h3 c hcm
      rw [hcf] at h4
      cases h4
    have hau : u0.takeWhile (· != ':') = P.takeWhile (· != ':') := by
      rw [← hPt, takeWhile_append_fail hc]
    exact splitScheme_id_inv hfail hbu (by rw [hau]; exact ha) (by rw [hau]; exact hal)
      (by rw [hau]; exact hall)
  · push_neg at hc
    have hsat : ∀ c ∈ P, (c != ':') = true := by
      intro c hcp
      have := hc c hcp
      revert this
      cases (c != ':') <;> simp
    apply splitScheme_eq_id
    rintro ⟨hb, ha, hal, hall⟩
    rw [dropWhile_append_sat hsat] at hb
    have hTne : T ≠ [] := by
      intro he
      rw [he] at hb
      exact hb rfl
    obtain ⟨th, tt, rfl⟩ : ∃ th tt, T = th :: tt := by
      cases T with
      | nil => exact absurd rfl hTne
      | cons a b => exact ⟨a, b, rfl⟩
    have hth : th = '?' ∨ th = '#' := by
      rcases hT with he | h | h
      · cases he
      · simp only [List.headI] at h
        exact Or.inl h
      · simp only [List.headI] at h
        exact Or.inr h
    have hthne : (th != ':') = true := by
      rcases hth with rfl | rfl <;> decide
    have hmem : th ∈ (P ++ th :: tt).takeWhile (· != ':') := by
      rw [takeWhile_append_sat hsat, List.takeWhile_cons, if_pos hthne]
      exact List.mem_append_right _ (List.mem_cons_self _ _)
    have := List.all_eq_true.mp hall th hmem
    rcases hth with rfl | rfl <;> exact absurd this (by decide)

/-- `splitNetloc` without the `//` marker. -/
theorem splitNetloc_no_marker {s : List Char} (h : s.take 2 ≠ ['/', '/']) :
    splitNetloc s = some ([], s) := by
  simp only [splitNetloc]
  rw [if_neg h]

/-- `splitNetloc` recovers a delimiter-free, bracket-free netloc placed after
`//` and followed by a delimiter (or nothing). -/
theorem splitNetloc_build {N rest : List Char}
    (hdelim : ∀ c ∈ N, isNetlocDelim c = false)
    (hlb : NoChar '[' N) (hrb : NoChar ']' N)
    (hrest : rest = [] ∨ isNetlocDelim rest.headI = true) :
    splitNetloc ('/' :: '/' :: (N ++ rest)) = some (N, rest) := by
  have hsat : ∀ c ∈ N, (fun c => !isNetlocDelim c) c = true := by
    intro c hcp
    simp [hdelim c hcp]
  have hta : (N ++ rest).takeWhile (fun c => !isNetlocDelim c) = N := by
    rw [takeWhile_append_sat hsat]
    rcases hrest with rfl | h
    · simp
    · cases rest with
      | nil => simp
      | cons rh rt =>
        rw [List.takeWhile_cons, if_neg]
        · simp
        · simp only [List.headI] at h
          simp [h]
  have hda : (N ++ rest).dropWhile (fun c => !isNetlocDelim c) = rest := by
    rw [dropWhile_append_sat hsat]
    rcases hrest with rfl | h
    · simp
    · cases rest with
      | nil => simp
      | cons rh rt =>
        rw [List.dropWhile_cons, if_neg]
        simp only [List.headI] at h
        simp [h]
  have hnlb : N.contains '[' = false := by
    rw [← Bool.not_eq_true, List.contains_iff_exists_mem_beq]
    push_neg
    intro c hcm
    have h5 := hlb c hcm
    exact fun he => h5 (beq_iff_eq.mp he).symm
  have hnrb : N.contains ']' = false := by
    rw [← Bool.not_eq_true, List.contains_iff_exists_mem_beq]
    push_neg
    intro c hcm
    have h5 := hrb c hcm
    exact fun he => h5 (beq_iff_eq.mp he).symm
  simp only [splitNetloc, List.take, List.drop, if_true]
  rw [hta, hda, hnlb, hnrb]
  simp

/-- `splitHash` on a `#`-free string. -/
theorem splitHash_no {X : List Char} (h : NoChar '#' X) : splitHash X = (X, []) := by
  have hsat : ∀ c ∈ X, (c != '#') = true := fun c hc => bne_iff_ne.mpr (h c hc)
  simp only [splitHash]
  rw [List.takeWhile_eq_self_iff.mpr hsat, List.dropWhile_eq_nil_iff.mpr hsat]
  rfl

/-- `splitHash` recovers a fragment appended with `#` to a `#`-free string. -/
theorem splitHash_build {X F : List Char} (h : NoChar '#' X) :
    splitHash (X ++ '#' :: F) = (X, F) := by
  have hsat : ∀ c ∈ X, (c != '#') = true := fun c hc => bne_iff_ne.mpr (h c hc)
  simp only [splitHash]
  rw [takeWhile_append_sat hsat, dropWhile_append_sat hsat, List.takeWhile_cons,
    List.dropWhile_cons]
  simp

/-- `splitQuery` on a `?`-free string. -/
theorem splitQuery_no {X : List Char} (h : NoChar '?' X) : splitQuery X = (X, []) := by
  have hsat : ∀ c ∈ X, (c != '?') = true := fun c hc => bne_iff_ne.mpr (h c hc)
  simp only [splitQuery]
  rw [List.takeWhile_eq_self_iff.mpr hsat, List.dropWhile_eq_nil_iff.mpr hsat]
  rfl

/-- `splitQuery` recovers a query appended with `?` to a `?`-free string. -/
theorem splitQuery_build {X Q : List Char} (h : NoChar '?' X) :
    splitQuery (X ++ '?' :: Q) = (X, Q) := by
  have hsat : ∀ c ∈ X, (c != '?') = true := fun c hc => bne_iff_ne.mpr (h c hc)
  simp only [splitQuery]
  rw [takeWhile_append_sat hsat, dropWhile_append_sat hsat, List.takeWhile_cons,
    List.dropWhile_cons]
  simp

/-- Lower-casing a list twice is lower-casing once. -/
theorem pyLower_idem (s : List Char) : pyLower (pyLower s) = pyLower s := by
  simp only [pyLower, List.map_map]
  exact List.map_congr_left (fun c _ => by simp [Function.comp, pyLowerChar_idem])

/-- Head of a lower-cased nonempty list. -/
theorem pyLower_headI {a : List Char} (h : a ≠ []) :
    (pyLower a).headI = pyLowerChar a.headI := by
  cases a with
  | nil => exact absurd rfl h
  | cons x t => rfl

/-- A prefix of a lower-cased list is itself lower-case fixed. -/
theorem pyLower_fix_of_pre {R s : List Char} (h : R <+: pyLower s) : pyLower R = R := by
  obtain ⟨t, ht⟩ := h
  have h2 : pyLower (R ++ t) = R ++ t := by
    rw [ht]
    exact pyLower_idem s
  rw [pyLower, List.map_append] at h2
  have h3 := List.append_inj h2 (by simp [pyLower])
  exact h3.1

/-- First element of a `dropWhile` result fails the predicate. -/
theorem head_of_dropWhile_eq_cons {p : Char → Bool} {l t : List Char} {c : Char}
    (h : l.dropWhile p = c :: t) : p c = false := by
  have h4 : List.dropWhile p (c :: t) = c :: t := by
    rw [← h, List.dropWhile_idempotent]
  rw [List.dropWhile_cons] at h4
  by_cases hc : p c = true
  · rw [if_pos hc] at h4
    have h5 := congrArg List.length h4
    have h6 := (List.dropWhile_sublist (l := t) (p := p)).length_le
    simp at h5
    omega
  · rwa [Bool.not_eq_true] at hc

/-- Computation of `pyUrlsplit` from its stages. -/
theorem pyUrlsplit_eq {u sch u1 nl u2 : List Char}
    (hsp : splitScheme (sanitize u) = (sch, u1))
    (hnl : splitNetloc u1 = some (nl, u2)) :
    pyUrlsplit u = some ⟨sch, nl, (splitQuery (splitHash u2).1).1,
      (splitQuery (splitHash u2).1).2, (splitHash u2).2⟩ := by
  simp only [pyUrlsplit, hsp, hnl]

/-- A failing netloc stage fails the whole split. -/
theorem pyUrlsplit_none {u sch u1 : List Char}
    (hsp : splitScheme (sanitize u) = (sch, u1))
    (hnl : splitNetloc u1 = none) : pyUrlsplit u = none := by
  simp only [pyUrlsplit, hsp, hnl]

/-- Structure of a scheme produced by `splitScheme`. -/
theorem splitScheme_shape {s S u1 : List Char} (h : splitScheme s = (S, u1)) :
    (S = [] ∧ u1 = s) ∨
      (S.headI.isAlpha = true ∧ (∀ c ∈ S, isSchemeChar c = true) ∧
        pyLower S = S ∧ S ≠ [] ∧ List.Sublist u1 s) := by
  simp only [splitScheme] at h
  split at h
  · next hcond =>
    obtain ⟨hb, ha, hal, hall⟩ := hcond
    right
    injection h with h1 h2
    subst h1
    subst h2
    refine ⟨?_, ?_, pyLower_idem _, ?_, ?_⟩
    · rw [pyLower_headI ha]
      exact pyLowerChar_isAlpha hal
    · intro c hc
      obtain ⟨c0, hc0, rfl⟩ := List.mem_map.mp hc
      exact pyLowerChar_isSchemeChar (List.all_eq_true.mp hall c0 hc0)
    · intro he
      exact ha (List.map_eq_nil_iff.mp he)
    · exact (List.tail_sublist _).trans (List.dropWhile_sublist _)
  · injection h with h1 h2
    subst h1
    subst h2
    exact Or.inl ⟨rfl, rfl⟩

/-- Structure of a netloc produced by `splitNetloc`. -/
theorem splitNetloc_shape {s N u2 : List Char} (h : splitNetloc s = some (N, u2)) :
    (s.take 2 ≠ ['/', '/'] ∧ N = [] ∧ u2 = s) ∨
      ((∀ c ∈ N, isNetlocDelim c = false) ∧
        (u2 = [] ∨ isNetlocDelim u2.headI = true) ∧
        List.Sublist N s ∧ List.Sublist u2 s) := by
  simp only [splitNetloc] at h
  split at h
  · next hm =>
    right
    have hNl : N = (s.drop 2).takeWhile (fun c => !isNetlocDelim c) ∧
        u2 = (s.drop 2).dropWhile (fun c => !isNetlocDelim c) := by
      split at h
      · cases h
      · split at h
        · split at h
          · injection h with h1
            injection h1 with h2 h3
            exact ⟨h2.symm, h3.symm⟩
          · cases h
        · injection h with h1
          injection h1 with h2 h3
          exact ⟨h2.symm, h3.symm⟩
    obtain ⟨hN, hu2⟩ := hNl
    subst hN
    subst hu2
    refine ⟨?_, ?_, ?_, ?_⟩
    · intro c hc
      have := List.mem_takeWhile_imp hc
      simpa using this
    · cases hu : (s.drop 2).dropWhile (fun c => !isNetlocDelim c) with
      | nil => exact Or.inl rfl
      | cons x t =>
        right
        have hx := head_of_dropWhile_eq_cons hu
        simp only [List.headI]
        simpa using hx
    · exact (List.takeWhile_sublist _).trans (List.drop_sublist _ _)
    · exact (List.dropWhile_sublist _).trans (List.drop_sublist _ _)
  · next hm =>
    injection h with h1
    injection h1 with h2 h3
    exact Or.inl ⟨hm, h2.symm, h3.symm⟩

/-- `normPath` is idempotent. -/
theorem normPath_idem (P : List Char) : normPath (normPath P) = normPath P := by
  unfold normPath
  by_cases h1 : P ≠ [] ∧ P ≠ ['/']
  · rw [if_pos h1]
    by_cases h2 : List.rdropWhile (· == '/') P ≠ [] ∧ List.rdropWhile (· == '/') P ≠ ['/']
    · rw [if_pos h2]
      exact List.rdropWhile_idempotent _ _
    · rw [if_neg h2]
  · rw [if_neg h1, if_neg h1]

/-- A path is `normPath`-fixed when empty, the root, or not ending in `/`. -/
theorem normPath_eq_self {Q : List Char}
    (h : Q = [] ∨ Q = ['/'] ∨ Q.getLast? ≠ some '/') : normPath Q = Q := by
  unfold normPath
  by_cases h1 : Q ≠ [] ∧ Q ≠ ['/']
  · rw [if_pos h1]
    rcases h with rfl | rfl | h
    · exact absurd rfl h1.1
    · exact absurd rfl h1.2
    · rw [List.rdropWhile_eq_self_iff]
      intro hl hp
      rw [List.getLast?_eq_getLast Q hl] at h
      simp only [beq_iff_eq] at hp
      rw [hp] at h
      exact h rfl
  · rw [if_neg h1]

/-- A nonempty `normPath` result that is not `['/']` does not end in `/`. -/
theorem normPath_getLastQ {P : List Char} (h0 : normPath P ≠ [])
    (hslash : normPath P ≠ ['/']) : (normPath P).getLast? ≠ some '/' := by
  have h1 : P ≠ [] ∧ P ≠ ['/'] := by
    constructor
    · rintro rfl
      exact h0 rfl
    · rintro rfl
      exact hslash rfl
  have h2 : normPath P = List.rdropWhile (· == '/') P := by
    unfold normPath
    rw [if_pos h1]
  rw [h2] at h0 ⊢
  rw [List.getLast?_eq_getLast _ h0]
  intro he
  injection he with he2
  have h3 := List.rdropWhile_last_not (· == '/') P h0
  rw [he2] at h3
  exact h3 (by decide)

/-- `fixPath` of a normalized path is itself `normPath`-fixed. -/
theorem normPath_fixPath (P : List Char) :
    normPath (fixPath (normPath P)) = fixPath (normPath P) := by
  by_cases h0 : normPath P = []
  · rw [h0]
    rfl
  · by_cases h1 : (normPath P).head? = some '/'
    · have hfx : fixPath (normPath P) = normPath P := by
        unfold fixPath
        rw [if_neg]
        rintro ⟨-, hh⟩
        exact hh h1
      rw [hfx, normPath_idem]
    · have hfx : fixPath (normPath P) = '/' :: normPath P := by
        unfold fixPath
        rw [if_pos ⟨h0, h1⟩]
      rw [hfx]
      by_cases hslash : normPath P = ['/']
      · rw [hslash] at h1
        exact absurd rfl h1
      · apply normPath_eq_self
        right
        right
        obtain ⟨x, t, hxt⟩ : ∃ x t, normPath P = x :: t := by
          cases hnp : normPath P with
          | nil => exact absurd hnp h0
          | cons a b => exact ⟨a, b, rfl⟩
        rw [hxt]
        rw [List.getLast?_cons_cons]
        rw [← hxt]
        exact normPath_getLastQ h0 hslash

/-- The normalized netloc is a fixed point of the netloc normalization. -/
theorem netloc_norm_fix (N : List Char) :
    List.rdropWhile (· == '.') (pyLower (List.rdropWhile (· == '.') (pyLower N)))
      = List.rdropWhile (· == '.') (pyLower N) := by
  have h1 : pyLower (List.rdropWhile (· == '.') (pyLower N))
      = List.rdropWhile (· == '.') (pyLower N) :=
    pyLower_fix_of_pre (List.rdropWhile_prefix _ _)
  rw [h1]
  exact List.rdropWhile_idempotent _ _

/-- `NoChar` for a cons. -/
theorem noChar_cons {d x : Char} {xs : List Char} (hx : x ≠ d) (h : NoChar d xs) :
    NoChar d (x :: xs) := by
  intro c hc
  rcases List.mem_cons.mp hc with rfl | hct
  · exact hx
  · exact h c hct

/-- `contains` is false on a `NoChar` list. -/
theorem contains_eq_false_of_noChar {d : Char} {s : List Char} (h : NoChar d s) :
    s.contains d = false := by
  rw [← Bool.not_eq_true, List.contains_iff_exists_mem_beq]
  push_neg
  intro c hcm
  have h5 := h c hcm
  exact fun he => h5 (beq_iff_eq.mp he).symm

/-- Head of an append. -/
theorem headI_append {xs ys : List Char} (h : xs ≠ []) : (xs ++ ys).headI = xs.headI := by
  cases xs with
  | nil => exact absurd rfl h
  | cons x t => rfl

/-- ASCII letters are not C0 controls or space. -/
theorem not_c0_of_alpha {c : Char} (h : c.isAlpha = true) : isC0OrSpace c = false := by
  rw [char_isAlpha_iff] at h
  simp only [isC0OrSpace, decide_eq_false_iff_not, Nat.not_le]
  omega

/-- `fixPath` yields the empty path or a slash-headed path. -/
theorem fixPath_shape (P : List Char) : fixPath P = [] ∨ (fixPath P).head? = some '/' := by
  unfold fixPath
  split
  · right
    rfl
  · next h =>
    push_neg at h
    cases P with
    | nil => exact Or.inl rfl
    | cons x t =>
      right
      exact h (List.cons_ne_nil x t)

/-- `fixPath` keeps a path that is empty or slash-headed. -/
theorem fixPath_of_head {X : List Char} (h : X = [] ∨ X.head? = some '/') :
    fixPath X = X := by
  unfold fixPath
  rw [if_neg]
  rintro ⟨hne, hh⟩
  rcases h with rfl | h
  · exact hne rfl
  · exact hh h

/-- `fixPath` is idempotent. -/
theorem fixPath_idem (P : List Char) : fixPath (fixPath P) = fixPath P :=
  fixPath_of_head (fixPath_shape P)

/-- A nonempty `fixPath` result starts with `/`. -/
theorem fixPath_headI {P : List Char} (h : fixPath P ≠ []) : (fixPath P).headI = '/' := by
  rcases fixPath_shape P with h2 | h2
  · exact absurd h2 h
  · cases hf : fixPath P with
    | nil => exact absurd hf h
    | cons x t =>
      have h3 : x = '/' := by
        rw [hf] at h2
        simpa using h2
      simp [List.headI, h3]

/-- `fixPath` does not create a `//` start. -/
theorem fixPath_take2 {P : List Char} (h : P.take 2 ≠ ['/', '/']) :
    (fixPath P).take 2 ≠ ['/', '/'] := by
  unfold fixPath
  split
  · next hc =>
    obtain ⟨hne, hh⟩ := hc
    intro he
    apply hh
    cases P with
    | nil => exact absurd rfl hne
    | cons x t =>
      simp only [List.take] at he
      injection he with h1 h2
      injection h2 with h3 h4
      rw [h3]
      rfl
  · exact h

/-- Appending query/fragment material does not create a `//` start. -/
theorem take2_append_qf {P T : List Char} (hP : P.take 2 ≠ ['/', '/'])
    (hT : T = [] ∨ T.headI = '?' ∨ T.headI = '#') :
    (P ++ T).take 2 ≠ ['/', '/'] := by
  cases P with
  | nil =>
    simp only [List.nil_append]
    rcases hT with rfl | h | h
    · simp
    · cases T with
      | nil => simp
      | cons th tt =>
        simp only [List.headI] at h
        subst h
        cases tt <;> simp
    · cases T with
      | nil => simp
      | cons th tt =>
        simp only [List.headI] at h
        subst h
        cases tt <;> simp
  | cons x t =>
    cases t with
    | nil =>
      simp only [List.cons_append, List.nil_append, List.take]
      rcases hT with rfl | h | h
      · simp
      · cases T with
        | nil => simp
        | cons th tt =>
          simp only [List.headI] at h
          subst h
          simp
      · cases T with
        | nil => simp
        | cons th tt =>
          simp only [List.headI] at h
          subst h
          simp
    | cons y u =>
      simp only [List.cons_append, List.take]
      intro he
      apply hP
      injection he with h1 h2
      injection h2 with h3 h4
      simp [h1, h3]

/-- The query/fragment tail is empty or starts with `?` or `#`. -/
theorem qfTail_shape (Q F : List Char) :
    qfTail Q F = [] ∨ (qfTail Q F).headI = '?' ∨ (qfTail Q F).headI = '#' := by
  unfold qfTail
  by_cases hQ : Q ≠ []
  · rw [if_pos hQ]
    right
    left
    rfl
  · rw [if_neg hQ]
    by_cases hF : F ≠ []
    · rw [if_pos hF]
      right
      right
      rfl
    · rw [if_neg hF]
      exact Or.inl rfl

/-- Recovery of path, query and fragment from a rebuilt `path ++ qfTail`. -/
theorem qf_recover {X Q F : List Char} (hXq : NoChar '?' X) (hXh : NoChar '#' X)
    (hQh : NoChar '#' Q) :
    (splitQuery (splitHash (X ++ qfTail Q F)).1).1 = X ∧
      (splitQuery (splitHash (X ++ qfTail Q F)).1).2 = Q ∧
      (splitHash (X ++ qfTail Q F)).2 = F := by
  unfold qfTail
  by_cases hQ : Q ≠ [] <;> by_cases hF : F ≠ []
  · rw [if_pos hQ, if_pos hF, ← List.append_assoc]
    have hh : splitHash ((X ++ '?' :: Q) ++ '#' :: F) = (X ++ '?' :: Q, F) :=
      splitHash_build (noChar_append hXh (noChar_cons (by decide) hQh))
    rw [hh]
    have hq : splitQuery (X ++ '?' :: Q) = (X, Q) := splitQuery_build hXq
    rw [hq]
    exact ⟨rfl, rfl, rfl⟩
  · rw [if_pos hQ, if_neg hF]
    push_neg at hF
    subst hF
    rw [List.append_nil]
    have hh : splitHash (X ++ '?' :: Q) = (X ++ '?' :: Q, []) :=
      splitHash_no (noChar_append hXh (noChar_cons (by decide) hQh))
    rw [hh]
    have hq : splitQuery (X ++ '?' :: Q) = (X, Q) := splitQuery_build hXq
    rw [hq]
    exact ⟨rfl, rfl, rfl⟩
  · rw [if_neg hQ, if_pos hF]
    push_neg at hQ
    subst hQ
    simp only [List.nil_append]
    have hh : splitHash (X ++ '#' :: F) = (X, F) := splitHash_build hXh
    rw [hh]
    have hq : splitQuery X = (X, []) := splitQuery_no hXq
    rw [hq]
    exact ⟨rfl, rfl, rfl⟩
  · rw [if_neg hQ, if_neg hF]
    push_neg at hQ hF
    subst hQ
    subst hF
    simp only [List.append_nil, List.nil_append]
    have hh : splitHash X = (X, []) := splitHash_no hXh
    rw [hh]
    have hq : splitQuery X = (X, []) := splitQuery_no hXq
    rw [hq]
    exact ⟨rfl, rfl, rfl⟩

/-- Explicit form of `urlunparse` with empty params. -/
theorem urlunparse_eq (S N P Q F : List Char) :
    urlunparse ⟨S, N, P, [], Q, F⟩ =
      (if S ≠ [] then
        S ++ ':' :: (if N ≠ [] ∨ (S ≠ [] ∧ S ∈ usesNetloc ∧ P.take 2 ≠ ['/', '/']) then
          ('/' :: '/' :: N) ++ fixPath P else P)
      else
        (if N ≠ [] ∨ (S ≠ [] ∧ S ∈ usesNetloc ∧ P.take 2 ≠ ['/', '/']) then
          ('/' :: '/' :: N) ++ fixPath P else P)) ++ qfTail Q F := by
  simp only [urlunparse, urlunsplit, qfTail]
  by_cases hQ : Q ≠ [] <;> by_cases hF : F ≠ [] <;>
    simp [hQ, hF, List.append_assoc]

/-- `pyUrlparse` when the split path has no `;`. -/
theorem pyUrlparse_of_split {u : List Char} {r : SplitResult}
    (h : pyUrlsplit u = some r) (hsem : r.path.contains ';' = false) :
    pyUrlparse u = some ⟨r.scheme, r.netloc, r.path, [], r.query, r.fragment⟩ := by
  unfold pyUrlparse
  rw [h, Option.map_some']
  rw [if_neg]
  rintro ⟨-, hc⟩
  rw [hsem] at hc
  cases hc

/-- Membership form of pointwise-false predicates over appends. -/
theorem forall_mem_app {p : Char → Bool} {xs ys : List Char}
    (hx : ∀ c ∈ xs, p c = false) (hy : ∀ c ∈ ys, p c = false) :
    ∀ c ∈ xs ++ ys, p c = false := by
  intro c hc
  rcases List.mem_append.mp hc with h | h
  · exact hx c h
  · exact hy c h

/-- Membership form over a cons. -/
theorem forall_mem_cons_char {p : Char → Bool} {x : Char} {xs : List Char}
    (hx : p x = false) (h : ∀ c ∈ xs, p c = false) :
    ∀ c ∈ x :: xs, p c = false := by
  intro c hc
  rcases List.mem_cons.mp hc with rfl | hct
  · exact hx
  · exact h c hct

/-- The query/fragment tail has no tab/CR/LF when its pieces have none. -/
theorem qfTail_not_unsafe {Q F : List Char}
    (hQ : ∀ c ∈ Q, isUnsafeUrlChar c = false) (hF : ∀ c ∈ F, isUnsafeUrlChar c = false) :
    ∀ c ∈ qfTail Q F, isUnsafeUrlChar c = false := by
  unfold qfTail
  apply forall_mem_app
  · split
    · exact forall_mem_cons_char (by decide) hQ
    · intro c hc
      cases hc
  · split
    · exact forall_mem_cons_char (by decide) hF
    · intro c hc
      cases hc

/-- `splitNetloc` after the `//` marker with a delimiter-free netloc either
recovers the components or fails the bracket validation outright. -/
theorem splitNetloc_build2 {N rest : List Char}
    (hdelim : ∀ c ∈ N, isNetlocDelim c = false)
    (hrest : rest = [] ∨ isNetlocDelim rest.headI = true) :
    splitNetloc ('/' :: '/' :: (N ++ rest)) = some (N, rest) ∨
      splitNetloc ('/' :: '/' :: (N ++ rest)) = none := by
  have hsat : ∀ c ∈ N, (fun c => !isNetlocDelim c) c = true := by
    intro c hcp
    simp [hdelim c hcp]
  have hta : (N ++ rest).takeWhile (fun c => !isNetlocDelim c) = N := by
    rw [takeWhile_append_sat hsat]
    rcases hrest with rfl | h
    · simp
    · cases rest with
      | nil => simp
      | cons rh rt =>
        rw [List.takeWhile_cons, if_neg]
        · simp
        · simp only [List.headI] at h
          simp [h]
  have hda : (N ++ rest).dropWhile (fun c => !isNetlocDelim c) = rest := by
    rw [dropWhile_append_sat hsat]
    rcases hrest with rfl | h
    · simp
    · cases rest with
      | nil => simp
      | cons rh rt =>
        rw [List.dropWhile_cons, if_neg]
        simp only [List.headI] at h
        simp [h]
  simp only [splitNetloc, List.take, List.drop, if_true]
  rw [hta, hda]
  by_cases h1 : ((N.contains '[' && !N.contains ']') ||
      (N.contains ']' && !N.contains '[')) = true
  · right
    rw [if_pos h1]
  · rw [if_neg h1]
    by_cases h2 : (N.contains '[' && N.contains ']') = true
    · rw [if_pos h2]
      by_cases h3 :
          checkBracketedHost (((N.dropWhile (· != '[')).tail).takeWhile (· != ']')) = true
      · left
        rw [if_pos h3]
      · right
        rw [if_neg h3]
    · left
      rw [if_neg h2]

/-- Core fixpoint: `normalize_url` leaves a URL rebuilt from already
normalized components unchanged, provided the path has no `;`, the netloc has
no brackets, and an empty-or-all-dots netloc does not precede a `//`-headed
path. -/
theorem normalize_fixpoint (S N P Q F : List Char)
    (hS : S = [] ∨ (S ≠ [] ∧ S.headI.isAlpha = true ∧ (∀ c ∈ S, isSchemeChar c = true) ∧
      pyLower S = S))
    (hNd : ∀ c ∈ N, isNetlocDelim c = false)
    (hNfix : List.rdropWhile (· == '.') (pyLower N) = N)
    (hPfix : normPath P = P)
    (hPsem : NoChar ';' P) (hPq : NoChar '?' P) (hPh : NoChar '#' P)
    (hQh : NoChar '#' Q)
    (hTS : ∀ c ∈ S, isUnsafeUrlChar c = false)
    (hTN : ∀ c ∈ N, isUnsafeUrlChar c = false)
    (hTP : ∀ c ∈ P, isUnsafeUrlChar c = false)
    (hTQ : ∀ c ∈ Q, isUnsafeUrlChar c = false)
    (hTF : ∀ c ∈ F, isUnsafeUrlChar c = false)
    (hP2 : N = [] → P.take 2 ≠ ['/', '/'])
    (hHdC0 : S = [] → N = [] → P ≠ [] → isC0OrSpace P.headI = false)
    (hNoSch : S = [] → N = [] →
      (P = [] ∨ P.headI = '/' ∨ ∃ u0, P <+: u0 ∧ splitScheme u0 = ([], u0))) :
    normalize_url (urlunparse ⟨S, N, P, [], Q, F⟩) = urlunparse ⟨S, N, P, [], Q, F⟩ := by
  have hQF := qfTail_shape Q F
  have hTQF := qfTail_not_unsafe hTQ hTF
  have hSfix : pyLower S = S := by
    rcases hS with rfl | h
    · rfl
    · exact h.2.2.2
  by_cases hcond : N ≠ [] ∨ (S ≠ [] ∧ S ∈ usesNetloc ∧ P.take 2 ≠ ['/', '/'])
  · -- authority branch
    rw [urlunparse_eq, if_pos hcond]
    set core : List Char := ('/' :: '/' :: N) ++ fixPath P with hcore
    set O : List Char := (if S ≠ [] then S ++ ':' :: core else core) ++ qfTail Q F with hOdef
    -- facts about the rebuilt path
    have hXq : NoChar '?' (fixPath P) := by
      unfold fixPath
      split
      · exact noChar_cons (by decide) hPq
      · exact hPq
    have hXh : NoChar '#' (fixPath P) := by
      unfold fixPath
      split
      · exact noChar_cons (by decide) hPh
      · exact hPh
    have hXsem : NoChar ';' (fixPath P) := by
      unfold fixPath
      split
      · exact noChar_cons (by decide) hPsem
      · exact hPsem
    have hTX : ∀ c ∈ fixPath P, isUnsafeUrlChar c = false := by
      unfold fixPath
      split
      · exact forall_mem_cons_char (by decide) hTP
      · exact hTP
    have hrest : fixPath P ++ qfTail Q F = [] ∨
        isNetlocDelim (fixPath P ++ qfTail Q F).headI = true := by
      by_cases hfp : fixPath P = []
      · rw [hfp, List.nil_append]
        rcases hQF with h | h | h
        · exact Or.inl h
        · right
          rw [h]
          rfl
        · right
          rw [h]
          rfl
      · right
        rw [headI_append hfp, fixPath_headI hfp]
        rfl
    -- the core with query/fragment tail, as seen after the scheme
    have hcoreApp : core ++ qfTail Q F = '/' :: '/' :: (N ++ (fixPath P ++ qfTail Q F)) := by
      rw [hcore]
      simp [List.append_assoc]
    have hTcore : ∀ c ∈ core ++ qfTail Q F, isUnsafeUrlChar c = false := by
      rw [hcoreApp]
      exact forall_mem_cons_char (by decide) (forall_mem_cons_char (by decide)
        (forall_mem_app hTN (forall_mem_app hTX hTQF)))
    have hnl2 : splitNetloc (core ++ qfTail Q F) = some (N, fixPath P ++ qfTail Q F) ∨
        splitNetloc (core ++ qfTail Q F) = none := by
      rw [hcoreApp]
      exact splitNetloc_build2 hNd hrest
    -- sanitize is the identity on O
    have hsan : sanitize O = O := by
      apply sanitize_eq_self
      · right
        rw [hOdef]
        by_cases hSne : S ≠ []
        · rw [if_pos hSne]
          rw [headI_append, headI_append hSne]
          · rcases hS with rfl | h
            · exact absurd rfl hSne
            · exact not_c0_of_alpha h.2.1
          · intro he
            exact hSne (List.append_eq_nil.mp he).1
        · rw [if_neg hSne]
          rw [hcoreApp]
          rfl
      · rw [hOdef]
        by_cases hSne : S ≠ []
        · rw [if_pos hSne]
          exact forall_mem_app (forall_mem_app hTS
            (forall_mem_cons_char (by decide) (by
              intro c hc
              exact hTcore c (List.mem_append_left _ hc)))) hTQF
        · rw [if_neg hSne]
          exact hTcore
    -- scheme recovery
    have hSS : splitScheme (sanitize O) = (S, core ++ qfTail Q F) := by
      rw [hsan, hOdef]
      by_cases hSne : S ≠ []
      · rw [if_pos hSne]
        have hassoc : (S ++ ':' :: core) ++ qfTail Q F = S ++ ':' :: (core ++ qfTail Q F) := by
          simp [List.append_assoc]
        rw [hassoc]
        rcases hS with rfl | h
        · exact absurd rfl hSne
        · rw [splitScheme_build h.1 h.2.1 h.2.2.1, h.2.2.2]
      · rw [if_neg hSne]
        push_neg at hSne
        subst hSne
        rw [splitScheme_not_alpha]
        right
        rw [hcoreApp]
        show ('/').isAlpha = false
        decide
    -- full split
    rcases hnl2 with hnl | hnl
    · obtain ⟨hq1, hq2, hq3⟩ := qf_recover hXq hXh hQh
      have hsplit : pyUrlsplit O = some ⟨S, N, fixPath P, Q, F⟩ := by
        have := pyUrlsplit_eq hSS hnl
        rw [hq1, hq2, hq3] at this
        exact this
      have hparse : pyUrlparse O = some ⟨S, N, fixPath P, [], Q, F⟩ :=
        pyUrlparse_of_split hsplit (contains_eq_false_of_noChar hXsem)
      -- normalization is the identity on the parsed components
      have hXfix : normPath (fixPath P) = fixPath P := by
        conv_lhs => rw [← hPfix]
        rw [normPath_fixPath, hPfix]
      show normalize_url O = O
      unfold normalize_url
      rw [hparse]
      simp only
      rw [hSfix, hNfix, hXfix]
      -- reassembly gives back O
      rw [urlunparse_eq]
      have hcond2 : N ≠ [] ∨ (S ≠ [] ∧ S ∈ usesNetloc ∧ (fixPath P).take 2 ≠ ['/', '/']) := by
        rcases hcond with h | h
        · exact Or.inl h
        · exact Or.inr ⟨h.1, h.2.1, fixPath_take2 h.2.2⟩
      rw [if_pos hcond2, hOdef, hcore, fixPath_idem]
    · have hsplit0 : pyUrlsplit O = none := pyUrlsplit_none hSS hnl
      have hparse0 : pyUrlparse O = none := by
        unfold pyUrlparse
        rw [hsplit0]
        rfl
      show normalize_url O = O
      unfold normalize_url
      rw [hparse0]
  · -- no authority marker
    rw [urlunparse_eq, if_neg hcond]
    have hN0 : N = [] := by
      by_contra hne
      exact hcond (Or.inl hne)
    subst hN0
    have hp2 : P.take 2 ≠ ['/', '/'] := hP2 rfl
    set O : List Char := (if S ≠ [] then S ++ ':' :: P else P) ++ qfTail Q F with hOdef
    have hTPQF : ∀ c ∈ P ++ qfTail Q F, isUnsafeUrlChar c = false := forall_mem_app hTP hTQF
    have hsan : sanitize O = O := by
      apply sanitize_eq_self
      · rw [hOdef]
        by_cases hSne : S ≠ []
        · right
          rw [if_pos hSne]
          rw [headI_append, headI_append hSne]
          · rcases hS with rfl | h
            · exact absurd rfl hSne
            · exact not_c0_of_alpha h.2.1
          · intro he
            exact hSne (List.append_eq_nil.mp he).1
        · rw [if_neg hSne]
          by_cases hPne : P ≠ []
          · right
            rw [headI_append hPne]
            push_neg at hSne
            exact hHdC0 hSne rfl hPne
          · push_neg at hPne
            subst hPne
            rw [List.nil_append]
            rcases hQF with h | h | h
            · exact Or.inl h
            · right
              rw [h]
              decide
            · right
              rw [h]
              decide
      · rw [hOdef]
        by_cases hSne : S ≠ []
        · rw [if_pos hSne]
          exact forall_mem_app (forall_mem_app hTS (forall_mem_cons_char (by decide) hTP)) hTQF
        · rw [if_neg hSne]
          exact hTPQF
    have hSS : splitScheme (sanitize O) = (S, P ++ qfTail Q F) := by
      rw [hsan, hOdef]
      by_cases hSne : S ≠ []
      · rw [if_pos hSne]
        have hassoc : (S ++ ':' :: P) ++ qfTail Q F = S ++ ':' :: (P ++ qfTail Q F) := by
          simp [List.append_assoc]
        rw [hassoc]
        rcases hS with rfl | h
        · exact absurd rfl hSne
        · rw [splitScheme_build h.1 h.2.1 h.2.2.1, h.2.2.2]
      · rw [if_neg hSne]
        push_neg at hSne
        subst hSne
        rcases hNoSch rfl rfl with hP0 | hPslash | ⟨u0, hpre, hfail⟩
        · subst hP0
          rw [List.nil_append]
          apply splitScheme_not_alpha
          rcases hQF with h | h | h
          · exact Or.inl h
          · right
            rw [h]
            decide
          · right
            rw [h]
            decide
        · by_cases hPne : P ≠ []
          · apply splitScheme_not_alpha
            right
            rw [headI_append hPne, hPslash]
            decide
          · push_neg at hPne
            subst hPne
            rw [List.nil_append]
            apply splitScheme_not_alpha
            rcases hQF with h | h | h
            · exact Or.inl h
            · right
              rw [h]
              decide
            · right
              rw [h]
              decide
        · exact splitScheme_append_fail hfail hpre hQF
    have hnl : splitNetloc (P ++ qfTail Q F) = some ([], P ++ qfTail Q F) :=
      splitNetloc_no_marker (take2_append_qf hp2 hQF)
    obtain ⟨hq1, hq2, hq3⟩ := qf_recover hPq hPh hQh
    have hsplit : pyUrlsplit O = some ⟨S, [], P, Q, F⟩ := by
      have := pyUrlsplit_eq hSS hnl
      rw [hq1, hq2, hq3] at this
      exact this
    have hparse : pyUrlparse O = some ⟨S, [], P, [], Q, F⟩ :=
      pyUrlparse_of_split hsplit (contains_eq_false_of_noChar hPsem)
    show normalize_url O = O
    unfold normalize_url
    rw [hparse]
    simp only
    rw [hSfix, hNfix, hPfix]
    rw [urlunparse_eq]
    have hcond2 : ¬([] ≠ ([] : List Char) ∨ (S ≠ [] ∧ S ∈ usesNetloc ∧ P.take 2 ≠ ['/', '/'])) := by
      rintro (h | h)
      · exact h rfl
      · exact hcond (Or.inr h)
    rw [if_neg hcond2, hOdef]

/-- Scheme characters are never tab/CR/LF. -/
theorem not_unsafe_of_schemeChar {c : Char} (h : isSchemeChar c = true) :
    isUnsafeUrlChar c = false := by
  by_cases hu : isUnsafeUrlChar c = true
  · exfalso
    simp only [isUnsafeUrlChar, Bool.or_eq_true, beq_iff_eq] at hu
    rcases hu with (rfl | rfl) | rfl <;> exact absurd h (by decide)
  · rwa [Bool.not_eq_true] at hu

/-- Lower-casing never introduces tab/CR/LF. -/
theorem not_unsafe_pyLowerChar {c : Char} (h : isUnsafeUrlChar c = false) :
    isUnsafeUrlChar (pyLowerChar c) = false := by
  simp only [isUnsafeUrlChar, Bool.or_eq_false_iff, beq_eq_false_iff_ne] at h ⊢
  obtain ⟨⟨h1, h2⟩, h3⟩ := h
  exact ⟨⟨pyLowerChar_ne_small (by decide) h1, pyLowerChar_ne_small (by decide) h2⟩,
    pyLowerChar_ne_small (by decide) h3⟩

/-- Lower-casing never introduces a netloc delimiter. -/
theorem netlocDelim_pyLowerChar {c : Char} (h : isNetlocDelim c = false) :
    isNetlocDelim (pyLowerChar c) = false := by
  simp only [isNetlocDelim, Bool.or_eq_false_iff, beq_eq_false_iff_ne] at h ⊢
  obtain ⟨⟨h1, h2⟩, h3⟩ := h
  exact ⟨⟨pyLowerChar_ne_small (by decide) h1, pyLowerChar_ne_small (by decide) h2⟩,
    pyLowerChar_ne_small (by decide) h3⟩

/-- A false `contains` gives `NoChar`. -/
theorem noChar_of_contains_eq_false {d : Char} {s : List Char}
    (h : s.contains d = false) : NoChar d s := by
  intro c hc he
  subst he
  rw [← Bool.not_eq_true, List.contains_iff_exists_mem_beq] at h
  exact h ⟨_, hc, beq_self_eq_true _⟩

/-- A nonempty list shares its head with any list it is a prefix of. -/
theorem headI_of_pre {l m : List Char} (h : l <+: m) (hne : l ≠ []) :
    m.headI = l.headI := by
  obtain ⟨t, rfl⟩ := h
  exact headI_append hne

/-- The path part returned by `splitparams` is a prefix of the input path. -/
theorem splitparams_fst_pre (p : List Char) : (splitparams p).1 <+: p := by
  simp only [splitparams]
  split
  · split
    · exact List.prefix_rfl
    · exact List.take_prefix _ _
  · exact List.takeWhile_prefix _

/-- A two-slash prefix survives extension of the list. -/
theorem take2_of_pre {A B : List Char} (h : A <+: B) (h2 : A.take 2 = ['/', '/']) :
    B.take 2 = ['/', '/'] := by
  obtain ⟨t, rfl⟩ := h
  cases A with
  | nil => simp at h2
  | cons a A1 =>
    cases A1 with
    | nil => simp [List.take] at h2
    | cons b A2 =>
      simp only [List.cons_append, List.take] at h2 ⊢
      exact h2

/-- `normPath` returns a prefix of its input. -/
theorem normPath_pre (p : List Char) : normPath p <+: p := by
  unfold normPath
  split
  · exact List.rdropWhile_prefix _ _
  · exact List.prefix_rfl

/-- An empty dot-stripped lower-cased netloc means the netloc was all dots. -/
theorem allDots_of_rdrop_nil {N : List Char}
    (h : List.rdropWhile (· == '.') (pyLower N) = []) : N.all (· == '.') = true := by
  rw [List.rdropWhile_eq_nil_iff] at h
  rw [List.all_eq_true]
  intro c hc
  have h2 := h (pyLowerChar c) (List.mem_map_of_mem _ hc)
  rw [beq_iff_eq] at h2 ⊢
  by_contra hne
  exact pyLowerChar_ne_small (by decide) hne h2

/-- Inversion facts about the components of a successful `pyUrlsplit`. -/
theorem pyUrlsplit_inv {u : List Char} {r : SplitResult} (h : pyUrlsplit u = some r) :
    (r.scheme = [] ∨ (r.scheme ≠ [] ∧ r.scheme.headI.isAlpha = true ∧
      (∀ c ∈ r.scheme, isSchemeChar c = true) ∧ pyLower r.scheme = r.scheme)) ∧
    (∀ c ∈ r.netloc, isNetlocDelim c = false) ∧
    NoChar '?' r.path ∧ NoChar '#' r.path ∧ NoChar '#' r.query ∧
    (∀ c ∈ r.netloc, isUnsafeUrlChar c = false) ∧
    (∀ c ∈ r.path, isUnsafeUrlChar c = false) ∧
    (∀ c ∈ r.query, isUnsafeUrlChar c = false) ∧
    (∀ c ∈ r.fragment, isUnsafeUrlChar c = false) ∧
    (r.scheme = [] →
      ((r.path = [] ∨ r.path.headI = '/' ∨
        ∃ u0, r.path <+: u0 ∧ splitScheme u0 = ([], u0)) ∧
      (r.path ≠ [] → isC0OrSpace r.path.headI = false))) := by
  rcases hsp : splitScheme (sanitize u) with ⟨sch, u1⟩
  cases hnl : splitNetloc u1 with
  | none =>
    rw [pyUrlsplit_none hsp hnl] at h
    cases h
  | some pp =>
    obtain ⟨nl, u2⟩ := pp
    have h2 := pyUrlsplit_eq hsp hnl
    rw [h] at h2
    have hr := Option.some.inj h2
    rw [hr]
    dsimp only
    -- explicit component expressions
    have hpa : (splitQuery (splitHash u2).1).1 =
        (u2.takeWhile (· != '#')).takeWhile (· != '?') := rfl
    have hqu : (splitQuery (splitHash u2).1).2 =
        ((u2.takeWhile (· != '#')).dropWhile (· != '?')).tail := rfl
    have hfr : (splitHash u2).2 = (u2.dropWhile (· != '#')).tail := rfl
    have hsub1 : List.Sublist u1 (sanitize u) := by
      rcases splitScheme_shape hsp with ⟨-, he⟩ | ⟨-, -, -, -, hs2⟩
      · rw [he]
      · exact hs2
    have hnshape := splitNetloc_shape hnl
    have hsub_u2 : List.Sublist u2 u1 := by
      rcases hnshape with ⟨-, -, he⟩ | ⟨-, -, -, hs2⟩
      · rw [he]
      · exact hs2
    have hsub_nl : List.Sublist nl u1 := by
      rcases hnshape with ⟨-, he, -⟩ | ⟨-, -, hs2, -⟩
      · rw [he]
        exact List.nil_sublist _
      · exact hs2
    have hsubPath : List.Sublist ((u2.takeWhile (· != '#')).takeWhile (· != '?')) u2 :=
      (List.takeWhile_sublist _).trans (List.takeWhile_sublist _)
    have hsubQuery :
        List.Sublist (((u2.takeWhile (· != '#')).dropWhile (· != '?')).tail) u2 :=
      ((List.tail_sublist _).trans (List.dropWhile_sublist _)).trans
        (List.takeWhile_sublist _)
    have hsubFrag : List.Sublist ((u2.dropWhile (· != '#')).tail) u2 :=
      (List.tail_sublist _).trans (List.dropWhile_sublist _)
    have hsanu := sanitize_not_unsafe u
    refine ⟨?_, ?_, ?_, ?_, ?_, ?_, ?_, ?_, ?_, ?_⟩
    · rcases splitScheme_shape hsp with ⟨he, -⟩ | ⟨hal, hch, hfx, hne, -⟩
      · exact Or.inl he
      · exact Or.inr ⟨hne, hal, hch, hfx⟩
    · rcases hnshape with ⟨-, he, -⟩ | ⟨hd, -, -, -⟩
      · rw [he]
        intro c hc
        cases hc
      · exact hd
    · intro c hc
      rw [hpa] at hc
      have hc2 : c ∈ u2.takeWhile (· != '#') := (List.takeWhile_sublist _).subset hc
      have h3 := List.mem_takeWhile_imp hc
      exact bne_iff_ne.mp h3
    · intro c hc
      rw [hpa] at hc
      have hc2 : c ∈ u2.takeWhile (· != '#') := (List.takeWhile_sublist _).subset hc
      have h3 := List.mem_takeWhile_imp hc2
      exact bne_iff_ne.mp h3
    · intro c hc
      rw [hqu] at hc
      have hc2 : c ∈ u2.takeWhile (· != '#') :=
        (((List.tail_sublist _).trans (List.dropWhile_sublist _))).subset hc
      have h3 := List.mem_takeWhile_imp hc2
      exact bne_iff_ne.mp h3
    · intro c hc
      exact hsanu c (hsub1.subset (hsub_nl.subset hc))
    · intro c hc
      rw [hpa] at hc
      exact hsanu c (hsub1.subset (hsub_u2.subset (hsubPath.subset hc)))
    · intro c hc
      rw [hqu] at hc
      exact hsanu c (hsub1.subset (hsub_u2.subset (hsubQuery.subset hc)))
    · intro c hc
      rw [hfr] at hc
      exact hsanu c (hsub1.subset (hsub_u2.subset (hsubFrag.subset hc)))
    · intro hsch0
      have hu1 : u1 = sanitize u := by
        rcases splitScheme_shape hsp with ⟨-, he⟩ | ⟨-, -, -, hne, -⟩
        · exact he
        · exact absurd hsch0 hne
      rw [hsch0, hu1] at hsp
      rcases hnshape with ⟨-, -, hu2⟩ | ⟨-, hshape2, -, -⟩
      · -- no netloc marker: the path is a prefix of the sanitized input
        have hpre : (u2.takeWhile (· != '#')).takeWhile (· != '?') <+: sanitize u := by
          rw [hu2, hu1]
          exact ( List.takeWhile_prefix _).trans ( List.takeWhile_prefix _)
        constructor
        · right
          right
          exact ⟨sanitize u, by rw [hpa]; exact hpre, hsp⟩
        · intro hpne
          rw [hpa] at hpne ⊢
          have hhead := headI_of_pre hpre hpne
          rcases sanitize_headI u with h0 | h0
          · rw [h0] at hpre
            exact absurd (List.prefix_nil.mp hpre) hpne
          · rw [hhead] at h0
            exact h0
      · rcases hshape2 with hu20 | hdel
        · have hp0 : (splitQuery (splitHash u2).1).1 = [] := by
            rw [hpa, hu20]
            rfl
          exact ⟨Or.inl hp0, fun hpne => absurd hp0 hpne⟩
        · obtain ⟨ch, ct, rfl⟩ : ∃ ch ct, u2 = ch :: ct := by
            cases u2 with
            | nil =>
              exfalso
              revert hdel
              decide
            | cons a b => exact ⟨a, b, rfl⟩
          have hch : ch = '/' ∨ ch = '?' ∨ ch = '#' := by
            simp only [List.headI] at hdel
            simp only [isNetlocDelim, Bool.or_eq_true, beq_iff_eq] at hdel
            tauto
          rcases hch with rfl | rfl | rfl
          · have hp : (splitQuery (splitHash ('/' :: ct)).1).1 =
                '/' :: ((ct.takeWhile (· != '#')).takeWhile (· != '?')) := by
              rw [hpa]
              rw [List.takeWhile_cons, if_pos (by decide), List.takeWhile_cons,
                if_pos (by decide)]
            constructor
            · right
              left
              rw [hp]
              rfl
            · intro h5
              rw [hp]
              show isC0OrSpace '/' = false
              decide
          · have hp : (splitQuery (splitHash ('?' :: ct)).1).1 = [] := by
              rw [hpa]
              rw [List.takeWhile_cons, if_pos (by decide), List.takeWhile_cons,
                if_neg (by decide)]
            exact ⟨Or.inl hp, fun hpne => absurd hp hpne⟩
          · have hp : (splitQuery (splitHash ('#' :: ct)).1).1 = [] := by
              rw [hpa]
              rw [List.takeWhile_cons, if_neg (by decide)]
              rfl
            exact ⟨Or.inl hp, fun hpne => absurd hp hpne⟩

/-- Components of `pyUrlparse` relative to the underlying `pyUrlsplit`. -/
theorem pyUrlparse_components {u : List Char} {pr : ParseResult}
    (h : pyUrlparse u = some pr) :
    ∃ r : SplitResult, pyUrlsplit u = some r ∧ pr.scheme = r.scheme ∧
      pr.netloc = r.netloc ∧ pr.path <+: r.path ∧ pr.query = r.query ∧
      pr.fragment = r.fragment := by
  unfold pyUrlparse at h
  cases hs : pyUrlsplit u with
  | none =>
    rw [hs] at h
    cases h
  | some r =>
    rw [hs, Option.map_some'] at h
    have h2 := Option.some.inj h
    refine ⟨r, rfl, ?_⟩
    by_cases hc : r.scheme ∈ usesParams ∧ r.path.contains ';' = true
    · rw [if_pos hc] at h2
      rw [← h2]
      exact ⟨rfl, rfl, splitparams_fst_pre r.path, rfl, rfl⟩
    · rw [if_neg hc] at h2
      rw [← h2]
      exact ⟨rfl, rfl, List.prefix_rfl, rfl, rfl⟩

/-- C6 (amended): `normalize_url` is idempotent on every URL whose parse
splits off no path parameters (the parsed path is `;`-free and the params
component is empty) and whose netloc is not made of dots only while the path
begins with `//`.  A URL that fails to parse is returned unchanged and is
idempotent trivially. -/
theorem C6_amended_normalize_idempotent (u : List Char)
    (h : ∀ pr : ParseResult, pyUrlparse u = some pr →
      pr.params = [] ∧ pr.path.contains ';' = false ∧
      ¬(pr.netloc.all (· == '.') = true ∧ pr.path.take 2 = ['/', '/'])) :
    normalize_url (normalize_url u) = normalize_url u := by
  cases hp : pyUrlparse u with
  | none =>
    have hnu : normalize_url u = u := by
      unfold normalize_url
      rw [hp]
    rw [hnu]
    exact hnu
  | some pr =>
    obtain ⟨hparams, hsem, hdots⟩ := h pr hp
    obtain ⟨r, hs, hsc, hnt, hpp, hqq, hff⟩ := pyUrlparse_components hp
    obtain ⟨hschShape, hNd0, hPq0, hPh0, hQh0, hTN0, hTP0, hTQ0, hTF0, hblk⟩ :=
      pyUrlsplit_inv hs
    have hnu : normalize_url u =
        urlunparse ⟨pyLower pr.scheme, List.rdropWhile (· == '.') (pyLower pr.netloc),
          normPath pr.path, pr.params, pr.query, pr.fragment⟩ := by
      unfold normalize_url
      rw [hp]
    rw [hparams] at hnu
    have hnp2 : normPath pr.path <+: pr.path := normPath_pre pr.path
    have hPsub : List.Sublist pr.path r.path := hpp.sublist
    have hS : pyLower pr.scheme = [] ∨ (pyLower pr.scheme ≠ [] ∧
        (pyLower pr.scheme).headI.isAlpha = true ∧
        (∀ c ∈ pyLower pr.scheme, isSchemeChar c = true) ∧
        pyLower (pyLower pr.scheme) = pyLower pr.scheme) := by
      rw [hsc]
      rcases hschShape with h0 | ⟨hne, hal, hch, hfx⟩
      · left
        rw [h0]
        rfl
      · right
        rw [hfx]
        exact ⟨hne, hal, hch, hfx⟩
    have hNd : ∀ c ∈ List.rdropWhile (· == '.') (pyLower pr.netloc),
        isNetlocDelim c = false := by
      intro c hc
      have hc2 : c ∈ pyLower pr.netloc :=
        (List.rdropWhile_prefix _ _).sublist.subset hc
      rw [hnt] at hc2
      obtain ⟨c0, hc0, rfl⟩ := List.mem_map.mp hc2
      exact netlocDelim_pyLowerChar (hNd0 c0 hc0)
    have hPsem : NoChar ';' (normPath pr.path) := by
      have h1 : NoChar ';' pr.path := noChar_of_contains_eq_false hsem
      exact fun c hc => h1 c (hnp2.sublist.subset hc)
    have hPq : NoChar '?' (normPath pr.path) :=
      fun c hc => hPq0 c (hPsub.subset (hnp2.sublist.subset hc))
    have hPh : NoChar '#' (normPath pr.path) :=
      fun c hc => hPh0 c (hPsub.subset (hnp2.sublist.subset hc))
    have hQh : NoChar '#' pr.query := by
      rw [hqq]
      exact hQh0
    have hTS : ∀ c ∈ pyLower pr.scheme, isUnsafeUrlChar c = false := by
      intro c hc
      rw [hsc] at hc
      obtain ⟨c0, hc0, rfl⟩ := List.mem_map.mp hc
      rcases hschShape with h0 | ⟨-, -, hch, -⟩
      · rw [h0] at hc0
        cases hc0
      · exact not_unsafe_pyLowerChar (not_unsafe_of_schemeChar (hch c0 hc0))
    have hTN : ∀ c ∈ List.rdropWhile (· == '.') (pyLower pr.netloc),
        isUnsafeUrlChar c = false := by
      intro c hc
      have hc2 : c ∈ pyLower pr.netloc :=
        (List.rdropWhile_prefix _ _).sublist.subset hc
      rw [hnt] at hc2
      obtain ⟨c0, hc0, rfl⟩ := List.mem_map.mp hc2
      exact not_unsafe_pyLowerChar (hTN0 c0 hc0)
    have hTP : ∀ c ∈ normPath pr.path, isUnsafeUrlChar c = false :=
      fun c hc => hTP0 c (hPsub.subset (hnp2.sublist.subset hc))
    have hTQ : ∀ c ∈ pr.query, isUnsafeUrlChar c = false := by
      rw [hqq]
      exact hTQ0
    have hTF : ∀ c ∈ pr.fragment, isUnsafeUrlChar c = false := by
      rw [hff]
      exact hTF0
    have hP2 : List.rdropWhile (· == '.') (pyLower pr.netloc) = [] →
        (normPath pr.path).take 2 ≠ ['/', '/'] := by
      intro hN0 hT2
      exact hdots ⟨allDots_of_rdrop_nil hN0, take2_of_pre hnp2 hT2⟩
    have hsch00 : pyLower pr.scheme = [] → r.scheme = [] := by
      intro hS0
      have h1 : pr.scheme = [] := List.map_eq_nil_iff.mp hS0
      rw [hsc] at h1
      exact h1
    have hHdC0 : pyLower pr.scheme = [] →
        List.rdropWhile (· == '.') (pyLower pr.netloc) = [] →
        normPath pr.path ≠ [] → isC0OrSpace (normPath pr.path).headI = false := by
      intro hS0 h5 hPne
      have hppne : pr.path ≠ [] := by
        intro h0
        rw [h0] at hPne
        exact hPne rfl
      have hrpne : r.path ≠ [] := by
        intro h0
        rw [h0] at hpp
        exact hppne (List.prefix_nil.mp hpp)
      have hC0 := (hblk (hsch00 hS0)).2 hrpne
      have e1 : pr.path.headI = (normPath pr.path).headI := headI_of_pre hnp2 hPne
      have e2 : r.path.headI = pr.path.headI := headI_of_pre hpp hppne
      rw [e2, e1] at hC0
      exact hC0
    have hNoSch : pyLower pr.scheme = [] →
        List.rdropWhile (· == '.') (pyLower pr.netloc) = [] →
        (normPath pr.path = [] ∨ (normPath pr.path).headI = '/' ∨
          ∃ u0, normPath pr.path <+: u0 ∧ splitScheme u0 = ([], u0)) := by
      intro hS0 h5
      rcases (hblk (hsch00 hS0)).1 with h0 | h0 | ⟨u0, hpre0, hid0⟩
      · left
        have h1 : pr.path = [] := by
          rw [h0] at hpp
          exact List.prefix_nil.mp hpp
        rw [h1]
        rfl
      · by_cases hPe : normPath pr.path = []
        · exact Or.inl hPe
        · right
          left
          have hppne : pr.path ≠ [] := by
            intro h00
            rw [h00] at hPe
            exact hPe rfl
          have e1 : pr.path.headI = (normPath pr.path).headI := headI_of_pre hnp2 hPe
          have e2 : r.path.headI = pr.path.headI := headI_of_pre hpp hppne
          rw [← e1, ← e2]
          exact h0
      · right
        right
        exact ⟨u0, (hnp2.trans hpp).trans hpre0, hid0⟩
    rw [hnu]
    exact normalize_fixpoint _ _ _ _ _ hS hNd (netloc_norm_fix pr.netloc)
      (normPath_idem pr.path) hPsem hPq hPh hQh hTS hTN hTP hTQ hTF hP2 hHdC0 hNoSch

/-- C6 (amended, witness): the idempotence theorem applied to the concrete
URL `https://API.example.com./v1/users/123/`, whose hypotheses hold. -/
theorem C6_amended_normalize_idempotent_witness :
    normalize_url (normalize_url (lc "https://API.example.com./v1/users/123/")) =
      normalize_url (lc "https://API.example.com./v1/users/123/") :=
  C6_amended_normalize_idempotent (lc "https://API.example.com./v1/users/123/") (by
    intro pr hpr
    have h0 : pyUrlparse (lc "https://API.example.com./v1/users/123/") =
        some ⟨lc "https", lc "API.example.com.", lc "/v1/users/123/", [], [], []⟩ := by
      decide
    rw [h0] at hpr
    obtain rfl := Option.some.inj hpr
    refine ⟨rfl, by decide, ?_⟩
    rintro ⟨h1, -⟩
    exact absurd h1 (by decide))
